import Mathlib

/-!
# Verification of the pydcel DCEL library

A shallow embedding of `src/pydcel/dcel` (files `point.py`, `vertex.py`,
`primitives.py`, `utils.py`, `dcel.py`).  Python objects linked by references
are modelled as records stored in flat arenas (lists) owned by the `Dcel`
record, with every cross-object reference (twin, next, prev, origin, face,
wedge) replaced by an integer index into the corresponding arena.  Float
coordinates are modelled as rationals (the geometric claims only involve
exact rational arithmetic); the transcendental `math.atan2` used by the
incident-edge sort is modelled over the reals via `Complex.arg`, which makes
the sorting phase of the construction noncomputable but leaves every other
operation executable.  Python's `list.sort(key=..., reverse=True)` is stable,
so it is modelled by Mathlib's stable `List.insertionSort` with the
"descending angle" relation.  Python's set iteration in `_create_faces`
("remove an arbitrary element") is modelled by iterating the half-edge arena
in index order, skipping entries already carrying a face; the claims about
face extraction are independent of that iteration order.
-/

namespace Pydcel

/-- `Vertex` from `vertex.py`: coordinates plus the list of incident
half-edges (`hedgelist`), stored as indices into the half-edge arena.
The vertex's `_index` is its position in the vertex arena. -/
structure Vertex where
  x : ℚ
  y : ℚ
  hedgelist : List ℕ
deriving Repr, DecidableEq

instance : Inhabited Vertex := ⟨⟨0, 0, []⟩⟩

/-- `HalfEdge` from `primitives.py`: origin vertex index, the fallback
destination captured at construction (`_destination`), and the optional
twin / face / next / prev references. -/
structure HalfEdge where
  origin : ℕ
  dest : ℕ
  twin : Option ℕ
  face : Option ℕ
  nexthedge : Option ℕ
  prevhedge : Option ℕ
deriving Repr, DecidableEq

instance : Inhabited HalfEdge := ⟨⟨0, 0, none, none, none, none⟩⟩

/-- `Face` from `primitives.py`: anchor half-edge (`wedge`) and the
`external` flag. -/
structure Face where
  wedge : Option ℕ
  external : Bool
deriving Repr, DecidableEq

instance : Inhabited Face := ⟨⟨none, false⟩⟩

/-- `Dcel` from `dcel.py`: the three arenas. -/
structure Dcel where
  vertices : List Vertex
  hedges : List HalfEdge
  faces : List Face
deriving Repr, DecidableEq

/-- The freshly constructed `Dcel` (all three collections empty). -/
def emptyDcel : Dcel := ⟨[], [], []⟩

/-- Arena lookup for vertices (out of range yields the default record;
constructed states only use in-range indices). -/
def getV (d : Dcel) (i : ℕ) : Vertex := d.vertices.getD i default

/-- Arena lookup for half-edges. -/
def getH (d : Dcel) (i : ℕ) : HalfEdge := d.hedges.getD i default

/-- Arena lookup for faces. -/
def getF (d : Dcel) (i : ℕ) : Face := d.faces.getD i default

/-- `HalfEdge.destination`: `twin.origin` when a twin is attached, otherwise
the destination captured at construction. -/
def destination (d : Dcel) (h : HalfEdge) : ℕ :=
  match h.twin with
  | some t => (getH d t).origin
  | none => h.dest

/-- Coordinates of the origin vertex of half-edge `hi`. -/
def originP (d : Dcel) (hi : ℕ) : ℚ × ℚ :=
  ((getV d (getH d hi).origin).x, (getV d (getH d hi).origin).y)

/-- Coordinates of the (twin-resolved) destination vertex of half-edge `hi`. -/
def destP (d : Dcel) (hi : ℕ) : ℚ × ℚ :=
  ((getV d (destination d (getH d hi))).x, (getV d (destination d (getH d hi))).y)

/-- `math.atan2 y x`, modelled as the principal argument of the complex
number `x + y*I` (range `(-π, π]`, and `0` at the origin, as in Python). -/
noncomputable def atan2 (y x : ℝ) : ℝ := Complex.arg ⟨x, y⟩

/-- `HalfEdge.angle` from `primitives.py`: `atan2(dy, dx)`, shifted by `2π`
when negative. -/
noncomputable def angleOf (dx dy : ℝ) : ℝ :=
  if 0 ≤ atan2 dy dx then atan2 dy dx else atan2 dy dx + 2 * Real.pi

/-- The angle of half-edge `hi` of `d`: `atan2` of the vector from its
origin to its (twin-resolved) destination, normalised into `[0, 2π)`. -/
noncomputable def hedgeAngle (d : Dcel) (hi : ℕ) : ℝ :=
  angleOf (((destP d hi).1 : ℝ) - ((originP d hi).1 : ℝ))
    (((destP d hi).2 : ℝ) - ((originP d hi).2 : ℝ))

/-- `Dcel.add_vertex`: append a vertex with an empty incident list; its
index is the current vertex count. -/
def add_vertex (d : Dcel) (x y : ℚ) : Dcel :=
  { d with vertices := d.vertices ++ [⟨x, y, []⟩] }

/-- The two exceptions `add_edge` can raise: the explicit
`ValueError("Vertex index out of range")` and the `IndexError` Python raises
on a list access with an index below `-len`. -/
inductive PyErr where
  | valueError
  | indexError
deriving Repr, DecidableEq

/-- Python list-indexing semantics for a list of length `n`: a non-negative
index must be `< n`; a negative index `i` addresses position `n + i` when
`-n ≤ i`; anything else raises `IndexError` (modelled as `none`). -/
def pyIdx (n : ℕ) (i : ℤ) : Option ℕ :=
  if 0 ≤ i then (if i < (n : ℤ) then some i.toNat else none)
  else (if 0 ≤ i + (n : ℤ) then some (i + (n : ℤ)).toNat else none)

/-- The successful branch of `add_edge`, for resolved vertex positions
`i'` and `j'`: create the two mutually twinned half-edges (`h1 : i'→j'`,
`h2 : j'→i'`), extend the arena with both, then append each to its origin
vertex's incident list (in that order, matching the two `append` calls). -/
def addEdgeCore (d : Dcel) (i' j' : ℕ) : Dcel :=
  let m := d.hedges.length
  let h1 : HalfEdge := ⟨i', j', some (m + 1), none, none, none⟩
  let h2 : HalfEdge := ⟨j', i', some m, none, none, none⟩
  let d1 : Dcel := { d with hedges := d.hedges ++ [h1, h2] }
  let v1 := getV d1 i'
  let d2 : Dcel :=
    { d1 with vertices := d1.vertices.set i' { v1 with hedgelist := v1.hedgelist ++ [m] } }
  let v2 := getV d2 j'
  { d2 with vertices := d2.vertices.set j' { v2 with hedgelist := v2.hedgelist ++ [m + 1] } }

/-- `Dcel.add_edge`: after the guard `v1_idx >= len(self.vertices) or
v2_idx >= len(self.vertices)` (which raises `ValueError`), the two vertex
accesses resolve Python-style (negative indices count from the end; an index
below `-len` raises `IndexError`).  On success the two mutually twinned
half-edges are appended to the arena and each is appended to its origin
vertex's incident list. -/
def add_edge (d : Dcel) (i j : ℤ) : Except PyErr Dcel :=
  let n := d.vertices.length
  if (n : ℤ) ≤ i ∨ (n : ℤ) ≤ j then .error .valueError
  else
    match pyIdx n i, pyIdx n j with
    | some i', some j' => .ok (addEdgeCore d i' j')
    | _, _ => .error .indexError

/-- The descending-angle relation used by `Vertex.sortincident`
(`sort(key=lambda h: h.angle, reverse=True)`). -/
noncomputable def angleGE (d : Dcel) (a b : ℕ) : Prop := hedgeAngle d b ≤ hedgeAngle d a

noncomputable instance : (d : Dcel) → DecidableRel (angleGE d) :=
  fun d a b => Real.decidableLE (hedgeAngle d b) (hedgeAngle d a)

/-- `Vertex.sortincident`: stable sort of the incident list by descending
angle (Python's `list.sort` is stable, as is `List.insertionSort`). -/
noncomputable def sortincident (d : Dcel) (v : Vertex) : Vertex :=
  { v with hedgelist := List.insertionSort (angleGE d) v.hedgelist }

/-- One step of the inner loop of `build_dcel`'s linking phase: half-edge
`L[i]` receives `nexthedge = L[(i+1) % n].twin` and
`prevhedge = L[i - 1]` (Python's `[i - 1]` wraps to the last element at
`i = 0`, i.e. position `(i + (n-1)) % n`). -/
def applyLinksStep (L : List ℕ) (hs : List HalfEdge) (i : ℕ) : List HalfEdge :=
  let n := L.length
  let target := L.getD i 0
  let nxt := (hs.getD (L.getD ((i + 1) % n) 0) default).twin
  let prv := some (L.getD ((i + (n - 1)) % n) 0)
  hs.set target { hs.getD target default with nexthedge := nxt, prevhedge := prv }

/-- The inner loop `for i, hedge in enumerate(vertex.hedgelist)` of the
linking phase, over a (sorted) incident list `L`. -/
def applyLinks (hs : List HalfEdge) (L : List ℕ) : List HalfEdge :=
  (List.range L.length).foldl (applyLinksStep L) hs

/-- One iteration of `for vertex in self.vertices` in `build_dcel`: sort the
vertex's incident list, then assign next/prev pointers for its half-edges. -/
noncomputable def linkStep (d : Dcel) (vi : ℕ) : Dcel :=
  let v := sortincident d (getV d vi)
  let d' : Dcel := { d with vertices := d.vertices.set vi v }
  { d' with hedges := applyLinks d'.hedges v.hedgelist }

/-- The linking phase of `build_dcel`, processing the given vertex indices
in order. -/
noncomputable def linkVerts (d : Dcel) : List ℕ → Dcel
  | [] => d
  | vi :: rest => linkVerts (linkStep d vi) rest

/-- The full linking phase: every vertex of the arena, in arena order. -/
noncomputable def linkAll (d : Dcel) : Dcel :=
  linkVerts d (List.range d.vertices.length)

/-- Following the `nexthedge` pointer of half-edge `m`. -/
def stepN (d : Dcel) (m : ℕ) : Option ℕ := (getH d m).nexthedge

/-- `k`-fold iteration of `nexthedge` (`none` on a missing pointer). -/
def iterNext (d : Dcel) : ℕ → ℕ → Option ℕ
  | 0, m => some m
  | k + 1, m =>
    match stepN d m with
    | none => none
    | some m' => iterNext d k m'

/-- Overwrite the face reference of half-edge `m`. -/
def setFace (d : Dcel) (m : ℕ) (fi : ℕ) : Dcel :=
  { d with hedges := d.hedges.set m { getH d m with face := some fi } }

/-- The boundary walk of `_create_faces`: assign face `fi` to the current
half-edge, move along `nexthedge`, stop on return to the anchor.  The source
loop has no bound; the fuel argument (always instantiated with the size of
the half-edge arena, which bounds every next-cycle) makes it structural. -/
def assignFaceAux (fi start : ℕ) : ℕ → Dcel → ℕ → Dcel
  | 0, d, _ => d
  | fuel + 1, d, cur =>
    let d' := setFace d cur fi
    match stepN d' cur with
    | none => d'
    | some nxt => if nxt = start then d' else assignFaceAux fi start fuel d' nxt

/-- The boundary walk of `Face.edges()` (also used by `vertices()` and
`edge_vertices()`): yield half-edges from `cur` along `nexthedge` until the
walk returns to `start`.  Fuel as in `assignFaceAux`. -/
def walkEdges (d : Dcel) (start : ℕ) : ℕ → ℕ → List ℕ
  | 0, _ => []
  | fuel + 1, cur =>
    cur ::
      (match stepN d cur with
       | none => []
       | some nxt => if nxt = start then [] else walkEdges d start fuel nxt)

/-- `Face.edges()`: the boundary cycle anchored at `wedge` (empty for an
empty face). -/
def faceEdges (d : Dcel) (f : Face) : List ℕ :=
  match f.wedge with
  | none => []
  | some w => walkEdges d w d.hedges.length w

/-- `Face.vertices()`: origins of the boundary cycle. -/
def faceVertices (d : Dcel) (f : Face) : List ℕ :=
  (faceEdges d f).map fun hi => (getH d hi).origin

/-- `Face.vertex_count`. -/
def vertex_count (d : Dcel) (f : Face) : ℕ := (faceVertices d f).length

/-- `Face.edge_vertices()`: the `(origin, destination)` coordinate pairs of
the boundary cycle. -/
def edge_vertices (d : Dcel) (f : Face) : List ((ℚ × ℚ) × (ℚ × ℚ)) :=
  (faceEdges d f).map fun hi => (originP d hi, destP d hi)

/-- The signed shoelace sum `Σ (x₁·y₂ − x₂·y₁)` accumulated by `Face.area`
before the absolute value is taken. -/
def shoelaceSum (d : Dcel) (f : Face) : ℚ :=
  (edge_vertices d f).foldl (fun s p => s + (p.1.1 * p.2.2 - p.2.1 * p.1.2)) 0

/-- `Face.area`: `0.0` for an empty face, otherwise the absolute value of
the shoelace sum, halved. -/
def area (d : Dcel) (f : Face) : ℚ :=
  match f.wedge with
  | none => 0
  | some _ => |shoelaceSum d f| / 2

/-- The face-extraction phase `_create_faces`: iterate over the half-edge
arena; every half-edge without a face anchors a fresh face whose boundary
walk assigns that face; afterwards each face with negative area is marked
external. -/
def create_faces (d : Dcel) : Dcel :=
  let d' := (List.range d.hedges.length).foldl
    (fun acc h =>
      if (getH acc h).face = none then
        assignFaceAux acc.faces.length h acc.hedges.length
          { acc with faces := acc.faces ++ [⟨some h, false⟩] } h
      else acc) d
  { d' with
    faces := d'.faces.map fun f => if area d' f < 0 then { f with external := true } else f }

/-- One step of the face-extraction fold of `_create_faces`, named so the
invariant proofs can speak about the intermediate states. -/
def faceStep (acc : Dcel) (h : ℕ) : Dcel :=
  if (getH acc h).face = none then
    assignFaceAux acc.faces.length h acc.hedges.length
      { acc with faces := acc.faces ++ [⟨some h, false⟩] } h
  else acc

/-- The vertex- and edge-adding phase of `build_dcel` (the first two loops). -/
def addPhase (d : Dcel) (vs : List (ℚ × ℚ)) (es : List (ℤ × ℤ)) : Except PyErr Dcel :=
  es.foldlM (fun acc e => add_edge acc e.1 e.2)
    (vs.foldl (fun acc p => add_vertex acc p.1 p.2) d)

/-- `Dcel.build_dcel`: add vertices, add edges, link, extract faces.
An exception from `add_edge` propagates to the caller. -/
noncomputable def build_dcel (d : Dcel) (vs : List (ℚ × ℚ)) (es : List (ℤ × ℤ)) :
    Except PyErr Dcel :=
  (addPhase d vs es).map fun d1 => create_faces (linkAll d1)

/-- `Dcel.__init__`: run `build_dcel` only when both arguments are truthy
(non-empty); otherwise the collections stay empty. -/
noncomputable def initDcel (vs : List (ℚ × ℚ)) (es : List (ℤ × ℤ)) : Except PyErr Dcel :=
  if vs ≠ [] ∧ es ≠ [] then build_dcel emptyDcel vs es else .ok emptyDcel

/-- `signed_area` from `utils.py`: twice the signed area of a triangle. -/
def signed_area (p1 p2 p3 : ℚ × ℚ) : ℚ :=
  (p2.1 - p1.1) * (p3.2 - p1.2) - (p3.1 - p1.1) * (p2.2 - p1.2)

/-- The `cx` accumulator of `Face.centroid`: `Σ (x₁+x₂) · factor` with
`factor` the signed shoelace term of the edge. -/
def centroidXSum (d : Dcel) (f : Face) : ℚ :=
  (edge_vertices d f).foldl
    (fun s p => s + (p.1.1 + p.2.1) * (p.1.1 * p.2.2 - p.2.1 * p.1.2)) 0

/-- The `cy` accumulator of `Face.centroid`. -/
def centroidYSum (d : Dcel) (f : Face) : ℚ :=
  (edge_vertices d f).foldl
    (fun s p => s + (p.1.2 + p.2.2) * (p.1.1 * p.2.2 - p.2.1 * p.1.2)) 0

/-- `Face.centroid`: `ValueError("Face has no edges")` on an empty face,
`ValueError("Face has zero area")` on a degenerate boundary, otherwise the
signed-shoelace-weighted vertex sums scaled by `1 / (6 * area)`. -/
def centroid (d : Dcel) (f : Face) : Except String (ℚ × ℚ) :=
  match f.wedge with
  | none => .error "Face has no edges"
  | some _ =>
    if area d f = 0 then .error "Face has zero area"
    else
      .ok (centroidXSum d f * (1 / (6 * area d f)), centroidYSum d f * (1 / (6 * area d f)))

/-- `Face._point_on_edge`: bounding-box test, then exact comparison on the
constant axis for axis-aligned edges, otherwise the line equation within an
absolute tolerance of `1e-10`. -/
def point_on_edge (o dst p : ℚ × ℚ) : Bool :=
  let xmin := min o.1 dst.1
  let xmax := max o.1 dst.1
  let ymin := min o.2 dst.2
  let ymax := max o.2 dst.2
  if ¬(xmin ≤ p.1 ∧ p.1 ≤ xmax ∧ ymin ≤ p.2 ∧ p.2 ≤ ymax) then false
  else if o.1 = dst.1 then decide (p.1 = o.1)
  else if o.2 = dst.2 then decide (p.2 = o.2)
  else
    let slope := (dst.2 - o.2) / (dst.1 - o.1)
    let expected := o.2 + slope * (p.1 - o.1)
    decide (|expected - p.2| < 1 / 10000000000)

/-- The contribution of one boundary edge to the winding number in
`Face.isinside`. -/
def windingContrib (p v1 v2 : ℚ × ℚ) : ℤ :=
  if v1.2 ≤ p.2 then
    (if v2.2 > p.2 then (if signed_area v1 v2 p > 0 then 1 else 0) else 0)
  else
    (if v2.2 ≤ p.2 then (if signed_area v1 v2 p < 0 then -1 else 0) else 0)

/-- `Face.isinside`: boundary-vertex exact match or boundary-edge membership
first, otherwise the winding-number test. -/
def isinside (d : Dcel) (f : Face) (p : ℚ × ℚ) : Bool :=
  if (faceEdges d f).any (fun hi =>
      decide (p = originP d hi) || decide (p = destP d hi) ||
      point_on_edge (originP d hi) (destP d hi) p) then
    true
  else
    decide (((edge_vertices d f).foldl (fun w pr => w + windingContrib p pr.1 pr.2) 0) ≠ 0)

/-! ### Verification infrastructure -/

/-- How many times half-edge index `m` occurs across all incident lists. -/
def hcount (d : Dcel) (m : ℕ) : ℕ :=
  (d.vertices.map fun v => v.hedgelist.count m).sum

/-- Every half-edge index occurs in the incident lists exactly once (and
out-of-range indices not at all).  Established by the add phase and kept by
the later phases. -/
def CountsOK (d : Dcel) : Prop :=
  ∀ m, hcount d m = if m < d.hedges.length then 1 else 0

/-- Twin references pair the half-edge arena up into mutual couples. -/
def TwinOK (d : Dcel) : Prop :=
  ∀ m, m < d.hedges.length →
    ∃ m', m' < d.hedges.length ∧ m' ≠ m ∧
      (getH d m).twin = some m' ∧ (getH d m').twin = some m

/-- `d` agrees with `d0` on everything the linking phase never writes:
sizes, faces, coordinates, and the origin/dest/twin/face fields. -/
def GeomEq (d0 d : Dcel) : Prop :=
  d.vertices.length = d0.vertices.length ∧
  d.hedges.length = d0.hedges.length ∧
  d.faces = d0.faces ∧
  (∀ vi, (getV d vi).x = (getV d0 vi).x ∧ (getV d vi).y = (getV d0 vi).y) ∧
  (∀ m, (getH d m).origin = (getH d0 m).origin ∧ (getH d m).dest = (getH d0 m).dest ∧
    (getH d m).twin = (getH d0 m).twin ∧ (getH d m).face = (getH d0 m).face)

/-- The linking rule of `build_dcel`, stated for one incident list `L` of
length `n`: position `k` has `nexthedge = L[(k+1) mod n].twin` and
`prevhedge = L[(k-1) mod n]`. -/
def LinkedAt (d : Dcel) (L : List ℕ) : Prop :=
  ∀ k, k < L.length →
    (getH d (L.getD k 0)).nexthedge = (getH d (L.getD ((k + 1) % L.length) 0)).twin ∧
    (getH d (L.getD k 0)).prevhedge = some (L.getD ((k + (L.length - 1)) % L.length) 0)

/-- `b` is reachable from `a` by following `nexthedge`. -/
def Reach (d : Dcel) (a b : ℕ) : Prop := ∃ k, iterNext d k a = some b

/-- The `nexthedge` map is a permutation of the half-edge arena: total into
the arena and injective (surjectivity follows by finiteness). -/
def ValidNext (d : Dcel) : Prop :=
  (∀ m, m < d.hedges.length → ∃ m', m' < d.hedges.length ∧ stepN d m = some m') ∧
  (∀ m1 m2, m1 < d.hedges.length → m2 < d.hedges.length →
    stepN d m1 = stepN d m2 → m1 = m2)

/-- The invariant of the face-extraction fold, measured against the frozen
reference `d1` (the Dcel entering `_create_faces`), after the first `p`
anchor candidates have been scanned: sizes and next pointers are unchanged,
every face created so far owns exactly the next-cycle of its wedge, every
assigned face index is in range, and every scanned half-edge has a face. -/
def FoldInv (d1 : Dcel) (p : ℕ) (acc : Dcel) : Prop :=
  acc.hedges.length = d1.hedges.length ∧
  (∀ mm, stepN acc mm = stepN d1 mm) ∧
  (∀ t, t < acc.faces.length → ∃ w, w < d1.hedges.length ∧
    getF acc t = ⟨some w, false⟩ ∧
    (∀ mm, ((getH acc mm).face = some t ↔ Reach d1 w mm))) ∧
  (∀ mm, (getH acc mm).face = none ∨
    ∃ t, t < acc.faces.length ∧ (getH acc mm).face = some t) ∧
  (∀ q, q < p → (getH acc q).face ≠ none)

/-- The input of the smallest nontrivial build: two vertices joined by one
edge.  Used as the concrete instance for several claims. -/
def oneEdgeVs : List (ℚ × ℚ) := [(0, 0), (1, 0)]

/-- The edge list of the one-edge build. -/
def oneEdgeEs : List (ℤ × ℤ) := [(0, 1)]

/-- The `Dcel` that `build_dcel` produces from `oneEdgeVs`/`oneEdgeEs`. -/
def oneEdgeDcel : Dcel :=
  { vertices := [⟨0, 0, [0]⟩, ⟨1, 0, [1]⟩],
    hedges := [⟨0, 1, some 1, some 0, some 1, some 0⟩, ⟨1, 0, some 0, some 0, some 0, some 1⟩],
    faces := [⟨some 0, false⟩] }

/-- A `Dcel` holding the counter-clockwise unit square as the boundary cycle
of its single face: vertices `(0,0), (1,0), (1,1), (0,1)`, four boundary
half-edges linked into one `nexthedge` cycle anchored at the face's wedge. -/
def squareDcel : Dcel :=
  { vertices := [⟨0, 0, [0]⟩, ⟨1, 0, [1]⟩, ⟨1, 1, [2]⟩, ⟨0, 1, [3]⟩],
    hedges := [⟨0, 1, none, some 0, some 1, some 3⟩, ⟨1, 2, none, some 0, some 2, some 0⟩,
               ⟨2, 3, none, some 0, some 3, some 1⟩, ⟨3, 0, none, some 0, some 0, some 2⟩],
    faces := [⟨some 0, false⟩] }

/-- The face of `squareDcel`. -/
def squareFace : Face := ⟨some 0, false⟩

/-! ### Generic list lemmas -/

theorem getD_append_left {α : Type} [Inhabited α] (l1 l2 : List α) (i : ℕ)
    (h : i < l1.length) : (l1 ++ l2).getD i default = l1.getD i default := by
  simp [List.getD_eq_getElem?_getD, List.getElem?_append_left h]

theorem getD_append_right {α : Type} [Inhabited α] (l1 l2 : List α) (i : ℕ)
    (h : l1.length ≤ i) : (l1 ++ l2).getD i default = l2.getD (i - l1.length) default := by
  simp [List.getD_eq_getElem?_getD, List.getElem?_append_right h]

theorem getD_set_self {α : Type} [Inhabited α] (l : List α) (i : ℕ) (x : α)
    (h : i < l.length) : (l.set i x).getD i default = x := by
  simp [List.getD_eq_getElem?_getD, List.getElem?_set_self h]

theorem getD_set_ne {α : Type} [Inhabited α] (l : List α) (i j : ℕ) (x : α)
    (h : i ≠ j) : (l.set i x).getD j default = l.getD j default := by
  simp [List.getD_eq_getElem?_getD, List.getElem?_set_ne h]

theorem two_le_sum_map {α : Type} (f : α → ℕ) :
    ∀ (l : List α) (i j : ℕ) (hij : i < j) (hj : j < l.length),
      f (l.get ⟨i, lt_trans hij hj⟩) + f (l.get ⟨j, hj⟩) ≤ (l.map f).sum := by
  intro l
  induction l with
  | nil => intro i j hij hj; simp at hj
  | cons a l ih =>
    intro i j hij hj
    cases i with
    | zero =>
      cases j with
      | zero => omega
      | succ j' =>
        have hj' : j' < l.length := by simpa using hj
        have : f (l.get ⟨j', hj'⟩) ≤ (l.map f).sum := by
          apply List.single_le_sum (by simp)
          exact List.mem_map_of_mem f (l.get_mem _ _)
        simpa using Nat.add_le_add_left this (f a)
    | succ i' =>
      cases j with
      | zero => omega
      | succ j' =>
        have hij' : i' < j' := Nat.lt_of_succ_lt_succ hij
        have hj' : j' < l.length := by simpa using hj
        have := ih i' j' hij' hj'
        simp only [List.map_cons, List.sum_cons, List.get_cons_succ]
        omega

theorem sum_map_pos_exists {α : Type} (f : α → ℕ) :
    ∀ (l : List α), 0 < (l.map f).sum → ∃ i, ∃ h : i < l.length, 0 < f (l.get ⟨i, h⟩) := by
  intro l
  induction l with
  | nil => simp
  | cons a l ih =>
    intro hpos
    by_cases ha : 0 < f a
    · exact ⟨0, by simp, ha⟩
    · have : 0 < (l.map f).sum := by
        simp only [List.map_cons, List.sum_cons] at hpos
        omega
      obtain ⟨i, hi, hfi⟩ := ih this
      exact ⟨i + 1, by simpa using Nat.succ_lt_succ hi, by simpa using hfi⟩

/-! ### Angle range (claim C8) -/

theorem angleOf_nonneg (dx dy : ℝ) : 0 ≤ angleOf dx dy := by
  have h2 := Complex.neg_pi_lt_arg (⟨dx, dy⟩ : ℂ)
  have hpi := Real.pi_pos
  unfold angleOf atan2
  split_ifs with h
  · exact h
  · push_neg at h
    linarith

theorem angleOf_lt_two_pi (dx dy : ℝ) : angleOf dx dy < 2 * Real.pi := by
  have h1 := Complex.arg_le_pi (⟨dx, dy⟩ : ℂ)
  have hpi := Real.pi_pos
  unfold angleOf atan2
  split_ifs with h
  · linarith
  · push_neg at h
    linarith

/-- C8: every half-edge's angle — `atan2(dy, dx)` of the origin-to-destination
vector, with `2π` added when the `atan2` value is negative — lies in the
interval `[0, 2π)`, for any origin and destination coordinates. -/
theorem C8_angle_range (d : Dcel) (hi : ℕ) :
    0 ≤ hedgeAngle d hi ∧ hedgeAngle d hi < 2 * Real.pi :=
  ⟨angleOf_nonneg _ _, angleOf_lt_two_pi _ _⟩

/-! ### Constructor truthiness (claim C10) -/

/-- C10: the constructor runs the build only when both arguments are
non-empty: with an empty edge list, an empty vertex list, or both empty, the
vertex, half-edge and face collections all stay empty (vertices supplied
with an empty edge list are not added). -/
theorem C10_init_empty (vs : List (ℚ × ℚ)) (es : List (ℤ × ℤ)) :
    initDcel vs [] = .ok emptyDcel ∧ initDcel [] es = .ok emptyDcel ∧
    initDcel [] [] = .ok emptyDcel := by
  refine ⟨?_, ?_, ?_⟩ <;> simp [initDcel]

/-! ### Point containment on the unit square (claim C7) -/

set_option maxHeartbeats 1000000 in
/-- C7: for the face whose boundary cycle is the counter-clockwise unit
square `(0,0), (1,0), (1,1), (0,1)`, `isinside` answers `True` for the
interior point `(0.5, 0.5)`, the vertex `(0, 0)`, the edge midpoint
`(0.5, 0)` and the corner `(1, 1)`, and `False` for `(2, 2)` and
`(0.5, -0.1)`. -/
theorem C7_square_isinside :
    isinside squareDcel squareFace (1/2, 1/2) = true ∧
    isinside squareDcel squareFace (0, 0) = true ∧
    isinside squareDcel squareFace (1/2, 0) = true ∧
    isinside squareDcel squareFace (1, 1) = true ∧
    isinside squareDcel squareFace (2, 2) = false ∧
    isinside squareDcel squareFace (1/2, -1/10) = false := by
  refine ⟨?_, ?_, ?_, ?_, ?_, ?_⟩ <;>
  norm_num [isinside, faceEdges, walkEdges, stepN, getH, getV, squareDcel, squareFace,
    originP, destP, destination, point_on_edge, edge_vertices, windingContrib, signed_area]

/-! ### Centroid preconditions (claim C6) -/

/-- C6: a face with no wedge has area `0`, vertex count `0`, and its
centroid request fails with the no-edges error; a face whose boundary has
signed shoelace sum exactly `0` gets a distinct zero-area error; otherwise
the centroid is the signed-shoelace-weighted sums scaled by `1/(6·area)`. -/
theorem C6_centroid_errors (d : Dcel) (f : Face) :
    (f.wedge = none →
      area d f = 0 ∧ vertex_count d f = 0 ∧ centroid d f = .error "Face has no edges") ∧
    (∀ w, f.wedge = some w → shoelaceSum d f = 0 →
      centroid d f = .error "Face has zero area") ∧
    ("Face has no edges" ≠ "Face has zero area") ∧
    (∀ w, f.wedge = some w → area d f ≠ 0 →
      centroid d f = .ok (centroidXSum d f * (1 / (6 * area d f)),
        centroidYSum d f * (1 / (6 * area d f)))) := by
  refine ⟨?_, ?_, ?_, ?_⟩
  · intro hw
    refine ⟨?_, ?_, ?_⟩
    · simp [area, hw]
    · simp [vertex_count, faceVertices, faceEdges, hw]
    · simp [centroid, hw]
  · intro w hw hs
    have ha : area d f = 0 := by simp [area, hw, hs]
    simp [centroid, hw, ha]
  · simp
  · intro w hw ha
    simp [centroid, hw, ha]

/-- Witness for C6 at concrete inputs: the empty face of the empty `Dcel`
and the degenerate (zero-area) single face of the one-edge build. -/
theorem C6_witness :
    area emptyDcel ⟨none, false⟩ = 0 ∧ vertex_count emptyDcel ⟨none, false⟩ = 0 ∧
    centroid emptyDcel ⟨none, false⟩ = .error "Face has no edges" ∧
    centroid oneEdgeDcel ⟨some 0, false⟩ = .error "Face has zero area" := by
  have h1 := (C6_centroid_errors emptyDcel ⟨none, false⟩).1 rfl
  have h2 := (C6_centroid_errors oneEdgeDcel ⟨some 0, false⟩).2.1 0 rfl
    (by norm_num [shoelaceSum, edge_vertices, faceEdges, walkEdges, stepN, getH, getV,
      oneEdgeDcel, originP, destP, destination])
  exact ⟨h1.1, h1.2.1, h1.2.2, h2⟩

/-! ### add_edge characterization (claims C4, C9) -/

theorem addEdgeCore_hedges (d : Dcel) (i' j' : ℕ) :
    (addEdgeCore d i' j').hedges =
      d.hedges ++ [⟨i', j', some (d.hedges.length + 1), none, none, none⟩,
                   ⟨j', i', some d.hedges.length, none, none, none⟩] := rfl

theorem addEdgeCore_faces (d : Dcel) (i' j' : ℕ) :
    (addEdgeCore d i' j').faces = d.faces := rfl

theorem addEdgeCore_vlen (d : Dcel) (i' j' : ℕ) :
    (addEdgeCore d i' j').vertices.length = d.vertices.length := by
  simp [addEdgeCore]

theorem addEdgeCore_getH_old (d : Dcel) (i' j' : ℕ) (mm : ℕ) (h : mm < d.hedges.length) :
    getH (addEdgeCore d i' j') mm = getH d mm := by
  unfold getH
  rw [addEdgeCore_hedges]
  exact getD_append_left _ _ _ h

theorem addEdgeCore_getH_new1 (d : Dcel) (i' j' : ℕ) :
    getH (addEdgeCore d i' j') d.hedges.length =
      ⟨i', j', some (d.hedges.length + 1), none, none, none⟩ := by
  unfold getH
  rw [addEdgeCore_hedges, getD_append_right _ _ _ (le_refl _)]
  simp

theorem addEdgeCore_getH_new2 (d : Dcel) (i' j' : ℕ) :
    getH (addEdgeCore d i' j') (d.hedges.length + 1) =
      ⟨j', i', some d.hedges.length, none, none, none⟩ := by
  unfold getH
  rw [addEdgeCore_hedges, getD_append_right _ _ _ (by omega)]
  simp

theorem addEdgeCore_getV_other (d : Dcel) (i' j' : ℕ) (vi : ℕ)
    (h1 : vi ≠ i') (h2 : vi ≠ j') :
    getV (addEdgeCore d i' j') vi = getV d vi := by
  simp [addEdgeCore, getV, List.getD_eq_getElem?_getD, List.getElem?_set, Ne.symm h1, Ne.symm h2]

theorem addEdgeCore_getV_fst (d : Dcel) (i' j' : ℕ) (hne : i' ≠ j')
    (hi : i' < d.vertices.length) :
    getV (addEdgeCore d i' j') i' =
      { getV d i' with hedgelist := (getV d i').hedgelist ++ [d.hedges.length] } := by
  simp [addEdgeCore, getV, List.getD_eq_getElem?_getD, List.getElem?_set, Ne.symm hne, hne, hi]

theorem addEdgeCore_getV_snd (d : Dcel) (i' j' : ℕ) (hne : i' ≠ j')
    (hj : j' < d.vertices.length) :
    getV (addEdgeCore d i' j') j' =
      { getV d j' with hedgelist := (getV d j').hedgelist ++ [d.hedges.length + 1] } := by
  simp [addEdgeCore, getV, List.getD_eq_getElem?_getD, List.getElem?_set, Ne.symm hne, hne, hj]

theorem addEdgeCore_getV_self (d : Dcel) (i' : ℕ) (hi : i' < d.vertices.length) :
    getV (addEdgeCore d i' i') i' =
      { getV d i' with hedgelist :=
          (getV d i').hedgelist ++ [d.hedges.length, d.hedges.length + 1] } := by
  simp [addEdgeCore, getV, List.getD_eq_getElem?_getD, List.getElem?_set, hi]

/-- C4: `add_edge(i, j)` raises the out-of-range `ValueError` whenever
`i >= len(vertices)` or `j >= len(vertices)` — before any half-edge is
created, so the state is untouched (the error carries no new state).  With
both indices in range it returns the state extended with exactly two
mutually twinned half-edges `i→j` and `j→i` appended to the half-edge
arena, each also appended to its origin vertex's incident list. -/
theorem C4_add_edge (d : Dcel) (i j : ℤ) :
    (((d.vertices.length : ℤ) ≤ i ∨ (d.vertices.length : ℤ) ≤ j) →
      add_edge d i j = .error .valueError) ∧
    (0 ≤ i → i < (d.vertices.length : ℤ) → 0 ≤ j → j < (d.vertices.length : ℤ) →
      add_edge d i j = .ok (addEdgeCore d i.toNat j.toNat) ∧
      (addEdgeCore d i.toNat j.toNat).hedges =
        d.hedges ++ [⟨i.toNat, j.toNat, some (d.hedges.length + 1), none, none, none⟩,
                     ⟨j.toNat, i.toNat, some d.hedges.length, none, none, none⟩] ∧
      (getH (addEdgeCore d i.toNat j.toNat) d.hedges.length).twin = some (d.hedges.length + 1) ∧
      (getH (addEdgeCore d i.toNat j.toNat) (d.hedges.length + 1)).twin = some d.hedges.length ∧
      (i.toNat ≠ j.toNat →
        (getV (addEdgeCore d i.toNat j.toNat) i.toNat).hedgelist =
          (getV d i.toNat).hedgelist ++ [d.hedges.length] ∧
        (getV (addEdgeCore d i.toNat j.toNat) j.toNat).hedgelist =
          (getV d j.toNat).hedgelist ++ [d.hedges.length + 1]) ∧
      (i.toNat = j.toNat →
        (getV (addEdgeCore d i.toNat j.toNat) i.toNat).hedgelist =
          (getV d i.toNat).hedgelist ++ [d.hedges.length, d.hedges.length + 1]) ∧
      (∀ vi, vi ≠ i.toNat → vi ≠ j.toNat →
        getV (addEdgeCore d i.toNat j.toNat) vi = getV d vi)) := by
  constructor
  · intro h
    unfold add_edge
    simp only
    rw [if_pos h]
  · intro h0i hin h0j hjn
    have hg : ¬(((d.vertices.length : ℤ) ≤ i) ∨ ((d.vertices.length : ℤ) ≤ j)) := by omega
    have hpi : pyIdx d.vertices.length i = some i.toNat := by
      unfold pyIdx
      rw [if_pos h0i, if_pos hin]
    have hpj : pyIdx d.vertices.length j = some j.toNat := by
      unfold pyIdx
      rw [if_pos h0j, if_pos hjn]
    have hiN : i.toNat < d.vertices.length := by omega
    have hjN : j.toNat < d.vertices.length := by omega
    refine ⟨?_, addEdgeCore_hedges d _ _, ?_, ?_, ?_, ?_, ?_⟩
    · unfold add_edge
      simp only
      rw [if_neg hg, hpi, hpj]
    · rw [addEdgeCore_getH_new1]
    · rw [addEdgeCore_getH_new2]
    · intro hne
      exact ⟨by rw [addEdgeCore_getV_fst d _ _ hne hiN],
             by rw [addEdgeCore_getV_snd d _ _ hne hjN]⟩
    · intro heq
      rw [heq, addEdgeCore_getV_self d _ hjN]
    · intro vi h1 h2
      exact addEdgeCore_getV_other d _ _ vi h1 h2

/-- Witness for C4: out-of-range on the empty `Dcel`, in-range on
`squareDcel`. -/
theorem C4_witness :
    add_edge emptyDcel 0 1 = .error .valueError ∧
    add_edge squareDcel 0 1 = .ok (addEdgeCore squareDcel 0 1) := by
  have h1 := (C4_add_edge emptyDcel 0 1).1 (by norm_num [emptyDcel])
  have h2 := ((C4_add_edge squareDcel 0 1).2 (by norm_num) (by norm_num [squareDcel])
    (by norm_num) (by norm_num [squareDcel])).1
  exact ⟨h1, h2⟩

/-- C9: `add_edge` accepts negative indices: on any `Dcel` with at least one
vertex, `add_edge(-1, j)` (with `j` in range) does not raise but creates the
twinned pair whose first half-edge originates at the last vertex
(Python-style negative indexing), although the interface describes indices
as non-negative. -/
theorem C9_add_edge_negative (d : Dcel) (j : ℤ) (hne : d.vertices ≠ [])
    (h0j : 0 ≤ j) (hjn : j < (d.vertices.length : ℤ)) :
    add_edge d (-1) j = .ok (addEdgeCore d (d.vertices.length - 1) j.toNat) ∧
    (getH (addEdgeCore d (d.vertices.length - 1) j.toNat) d.hedges.length).origin =
      d.vertices.length - 1 ∧
    (getH (addEdgeCore d (d.vertices.length - 1) j.toNat) d.hedges.length).twin =
      some (d.hedges.length + 1) ∧
    (getH (addEdgeCore d (d.vertices.length - 1) j.toNat) (d.hedges.length + 1)).origin =
      j.toNat ∧
    (getH (addEdgeCore d (d.vertices.length - 1) j.toNat) (d.hedges.length + 1)).twin =
      some d.hedges.length := by
  have hn : 0 < d.vertices.length := List.length_pos.mpr hne
  have hg : ¬(((d.vertices.length : ℤ) ≤ (-1 : ℤ)) ∨ ((d.vertices.length : ℤ) ≤ j)) := by omega
  have hpi : pyIdx d.vertices.length (-1) = some (d.vertices.length - 1) := by
    unfold pyIdx
    rw [if_neg (by omega), if_pos (by omega)]
    congr 1
    omega
  have hpj : pyIdx d.vertices.length j = some j.toNat := by
    unfold pyIdx
    rw [if_pos h0j, if_pos hjn]
  refine ⟨?_, ?_, ?_, ?_, ?_⟩
  · unfold add_edge
    simp only
    rw [if_neg hg, hpi, hpj]
  · rw [addEdgeCore_getH_new1]
  · rw [addEdgeCore_getH_new1]
  · rw [addEdgeCore_getH_new2]
  · rw [addEdgeCore_getH_new2]

/-- Witness for C9: a one-vertex `Dcel`; `add_edge(-1, 0)` succeeds and the
new half-edge pair originates at vertex `0` (= `len - 1`). -/
theorem C9_witness :
    add_edge (add_vertex emptyDcel 5 7) (-1) 0 =
      .ok (addEdgeCore (add_vertex emptyDcel 5 7) 0 0) ∧
    (getH (addEdgeCore (add_vertex emptyDcel 5 7) 0 0) 0).origin = 0 := by
  have h := C9_add_edge_negative (add_vertex emptyDcel 5 7) 0
    (by simp [add_vertex, emptyDcel]) (by norm_num) (by simp [add_vertex, emptyDcel])
  exact ⟨h.1, h.2.1⟩

/-! ### The concrete one-edge build -/

theorem addPhase_oneEdge :
    addPhase emptyDcel oneEdgeVs oneEdgeEs =
      .ok ⟨[⟨0, 0, [0]⟩, ⟨1, 0, [1]⟩],
           [⟨0, 1, some 1, none, none, none⟩, ⟨1, 0, some 0, none, none, none⟩], []⟩ := by
  norm_num [addPhase, oneEdgeVs, oneEdgeEs, add_vertex, add_edge, addEdgeCore, emptyDcel,
    pyIdx, getV]

theorem linkAll_oneEdge :
    linkAll ⟨[⟨0, 0, [0]⟩, ⟨1, 0, [1]⟩],
             [⟨0, 1, some 1, none, none, none⟩, ⟨1, 0, some 0, none, none, none⟩], []⟩ =
      ⟨[⟨0, 0, [0]⟩, ⟨1, 0, [1]⟩],
       [⟨0, 1, some 1, none, some 1, some 0⟩, ⟨1, 0, some 0, none, some 0, some 1⟩], []⟩ := by
  norm_num [linkAll, linkVerts, linkStep, sortincident, getV, getH,
    applyLinks, applyLinksStep, List.range_succ, List.insertionSort, List.orderedInsert]

theorem create_faces_oneEdge :
    create_faces ⟨[⟨0, 0, [0]⟩, ⟨1, 0, [1]⟩],
                  [⟨0, 1, some 1, none, some 1, some 0⟩,
                   ⟨1, 0, some 0, none, some 0, some 1⟩], []⟩ = oneEdgeDcel := by
  norm_num [create_faces, oneEdgeDcel, getH, getV, assignFaceAux, setFace, stepN,
    area, faceEdges, walkEdges, edge_vertices, originP, destP, destination, shoelaceSum,
    List.range_succ, Option.some_ne_none]

/-- `build_dcel` on two vertices joined by one edge, computed in full. -/
theorem build_oneEdge : build_dcel emptyDcel oneEdgeVs oneEdgeEs = .ok oneEdgeDcel := by
  rw [build_dcel, addPhase_oneEdge]
  rw [show ∀ x : Dcel, Except.map (f := fun d1 => create_faces (linkAll d1))
        (Except.ok x) = .ok (create_faces (linkAll x)) from fun x => rfl]
  rw [linkAll_oneEdge, create_faces_oneEdge]

/-! ### next/prev are not mutually inverse (claim C2) -/

/-- Counterexample to C2: in the Dcel built from a single edge, half-edge 0
has `nexthedge = 1` while half-edge 1 has `prevhedge = 1`: so
`h.nexthedge.prevhedge` is not `h`: next and prev are not mutually inverse
cyclic links. -/
theorem C2_counterexample :
    build_dcel emptyDcel oneEdgeVs oneEdgeEs = .ok oneEdgeDcel ∧
    (getH oneEdgeDcel 0).nexthedge = some 1 ∧
    (getH oneEdgeDcel 1).prevhedge = some 1 ∧
    ¬(∀ m, m < oneEdgeDcel.hedges.length →
        (getH oneEdgeDcel ((getH oneEdgeDcel m).nexthedge.getD 0)).prevhedge = some m ∧
        (getH oneEdgeDcel ((getH oneEdgeDcel m).prevhedge.getD 0)).nexthedge = some m) := by
  refine ⟨build_oneEdge, rfl, rfl, ?_⟩
  intro h
  have h0 := (h 0 (by norm_num [oneEdgeDcel])).1
  simp [getH, oneEdgeDcel] at h0

/-! ### Faces are never marked external (claim C1) -/

theorem area_nonneg (d : Dcel) (f : Face) : 0 ≤ area d f := by
  unfold area
  cases f.wedge with
  | none => simp
  | some w => positivity

theorem assignFaceAux_faces (fi start : ℕ) :
    ∀ (fuel : ℕ) (d : Dcel) (cur : ℕ), (assignFaceAux fi start fuel d cur).faces = d.faces := by
  intro fuel
  induction fuel with
  | zero => intro d cur; rfl
  | succ n ih =>
    intro d cur
    show (match stepN (setFace d cur fi) cur with
          | none => setFace d cur fi
          | some nxt => if nxt = start then setFace d cur fi
                        else assignFaceAux fi start n (setFace d cur fi) nxt).faces = d.faces
    cases hs : stepN (setFace d cur fi) cur with
    | none => rfl
    | some nxt =>
      dsimp only
      by_cases hx : nxt = start
      · rw [if_pos hx]; rfl
      · rw [if_neg hx, ih]; rfl

theorem assignFaceAux_vertices (fi start : ℕ) :
    ∀ (fuel : ℕ) (d : Dcel) (cur : ℕ),
      (assignFaceAux fi start fuel d cur).vertices = d.vertices := by
  intro fuel
  induction fuel with
  | zero => intro d cur; rfl
  | succ n ih =>
    intro d cur
    show (match stepN (setFace d cur fi) cur with
          | none => setFace d cur fi
          | some nxt => if nxt = start then setFace d cur fi
                        else assignFaceAux fi start n (setFace d cur fi) nxt).vertices = d.vertices
    cases hs : stepN (setFace d cur fi) cur with
    | none => rfl
    | some nxt =>
      dsimp only
      by_cases hx : nxt = start
      · rw [if_pos hx]; rfl
      · rw [if_neg hx, ih]; rfl

theorem create_faces_external (d : Dcel) (hd : ∀ f ∈ d.faces, f.external = false) :
    ∀ f ∈ (create_faces d).faces, f.external = false := by
  unfold create_faces
  simp only [List.mem_map]
  rintro f ⟨g, hg, rfl⟩
  rw [if_neg (not_lt.mpr (area_nonneg _ _))]
  revert g hg
  apply List.foldlRecOn (motive := fun acc => ∀ g ∈ acc.faces, g.external = false)
    (List.range d.hedges.length) _ d hd
  intro acc hacc h _
  by_cases hc : (getH acc h).face = none
  · rw [if_pos hc, assignFaceAux_faces]
    intro g hg
    simp only [List.mem_append, List.mem_singleton] at hg
    rcases hg with hg | rfl
    · exact hacc g hg
    · rfl
  · rw [if_neg hc]
    exact hacc

theorem pyIdx_lt (n : ℕ) (i : ℤ) (i' : ℕ) (h : pyIdx n i = some i') : i' < n := by
  unfold pyIdx at h
  split_ifs at h with h1 h2 h3 <;> simp at h <;> omega

theorem add_edge_ok_inv (d : Dcel) (i j : ℤ) (d' : Dcel) (h : add_edge d i j = .ok d') :
    ∃ i' j', i' < d.vertices.length ∧ j' < d.vertices.length ∧
      pyIdx d.vertices.length i = some i' ∧ pyIdx d.vertices.length j = some j' ∧
      d' = addEdgeCore d i' j' := by
  unfold add_edge at h
  simp only at h
  split_ifs at h with hg
  cases hpi : pyIdx d.vertices.length i with
  | none =>
    rw [hpi] at h
    cases hpj : pyIdx d.vertices.length j with
    | none => simp at h
    | some j' => simp at h
  | some i' =>
    cases hpj : pyIdx d.vertices.length j with
    | none => rw [hpi, hpj] at h; simp at h
    | some j' =>
      rw [hpi, hpj] at h
      simp only [Except.ok.injEq] at h
      exact ⟨i', j', pyIdx_lt _ _ _ hpi, pyIdx_lt _ _ _ hpj, rfl, rfl, h.symm⟩

theorem addEdges_faces :
    ∀ (es : List (ℤ × ℤ)) (d0 d : Dcel),
      es.foldlM (fun acc e => add_edge acc e.1 e.2) d0 = .ok d → d.faces = d0.faces := by
  intro es
  induction es with
  | nil =>
    intro d0 d h
    simp only [List.foldlM_nil] at h
    cases h
    rfl
  | cons e es ih =>
    intro d0 d h
    rw [List.foldlM_cons] at h
    cases he : add_edge d0 e.1 e.2 with
    | error err =>
      rw [he] at h
      exact absurd h (by simp [show ∀ f : Dcel → Except PyErr Dcel,
        (Except.error err >>= f) = Except.error err from fun f => rfl])
    | ok d1 =>
      rw [he] at h
      have hbind : (Except.ok d1 >>= fun init =>
        es.foldlM (fun acc e => add_edge acc e.1 e.2) init) =
          es.foldlM (fun acc e => add_edge acc e.1 e.2) d1 := rfl
      rw [hbind] at h
      have hstep : d1.faces = d0.faces := by
        obtain ⟨i', j', _, _, _, _, rfl⟩ := add_edge_ok_inv d0 e.1 e.2 d1 he
        exact addEdgeCore_faces d0 i' j'
      rw [ih d1 d h, hstep]

theorem linkStep_faces (d : Dcel) (vi : ℕ) : (linkStep d vi).faces = d.faces := rfl

theorem linkVerts_faces : ∀ (todo : List ℕ) (d : Dcel), (linkVerts d todo).faces = d.faces := by
  intro todo
  induction todo with
  | nil => intro d; rfl
  | cons vi rest ih => intro d; rw [linkVerts, ih, linkStep_faces]

theorem linkAll_faces (d : Dcel) : (linkAll d).faces = d.faces := linkVerts_faces _ _

theorem addVerts_parts (vs : List (ℚ × ℚ)) :
    ∀ (d : Dcel),
      (vs.foldl (fun acc p => add_vertex acc p.1 p.2) d).vertices =
        d.vertices ++ vs.map (fun p => ⟨p.1, p.2, []⟩) ∧
      (vs.foldl (fun acc p => add_vertex acc p.1 p.2) d).hedges = d.hedges ∧
      (vs.foldl (fun acc p => add_vertex acc p.1 p.2) d).faces = d.faces := by
  induction vs with
  | nil => intro d; simp
  | cons p vs ih =>
    intro d
    simp only [List.foldl_cons, List.map_cons]
    obtain ⟨h1, h2, h3⟩ := ih (add_vertex d p.1 p.2)
    exact ⟨by rw [h1]; simp [add_vertex], by rw [h2]; rfl, by rw [h3]; rfl⟩

theorem build_ok_inv (d0 : Dcel) (vs : List (ℚ × ℚ)) (es : List (ℤ × ℤ)) (d : Dcel)
    (h : build_dcel d0 vs es = .ok d) :
    ∃ d1, addPhase d0 vs es = .ok d1 ∧ d = create_faces (linkAll d1) := by
  unfold build_dcel at h
  cases ha : addPhase d0 vs es with
  | error e => rw [ha] at h; simp [Except.map] at h
  | ok d1 =>
    rw [ha] at h
    simp only [Except.map, Except.ok.injEq] at h
    exact ⟨d1, rfl, h.symm⟩

/-- C1: every face of a `Dcel` built by `build_dcel` ends construction with
`external = false`: the classification test compares `face.area < 0`, but
`area` is an absolute value and hence never negative, so the test never
fires. -/
theorem C1_faces_not_external (vs : List (ℚ × ℚ)) (es : List (ℤ × ℤ)) (d : Dcel)
    (hb : build_dcel emptyDcel vs es = .ok d) :
    (∀ f, 0 ≤ area d f) ∧ (∀ f ∈ d.faces, f.external = false) := by
  obtain ⟨d1, ha, rfl⟩ := build_ok_inv emptyDcel vs es d hb
  refine ⟨fun f => area_nonneg _ f, ?_⟩
  apply create_faces_external
  rw [linkAll_faces]
  unfold addPhase at ha
  have hfaces := addEdges_faces es _ d1 ha
  rw [hfaces, (addVerts_parts vs emptyDcel).2.2]
  intro f hf
  simp [emptyDcel] at hf

/-- Witness for C1: the one-edge build. -/
theorem C1_witness :
    (∀ f, 0 ≤ area oneEdgeDcel f) ∧ (∀ f ∈ oneEdgeDcel.faces, f.external = false) :=
  C1_faces_not_external oneEdgeVs oneEdgeEs oneEdgeDcel build_oneEdge

/-! ### Counting half-edge occurrences across incident lists -/

theorem getD_eq_getElem {α : Type} [Inhabited α] (l : List α) (i : ℕ) (h : i < l.length) :
    l.getD i default = l[i] := by
  rw [List.getD_eq_getElem?_getD, List.getElem?_eq_getElem h, Option.getD_some]

theorem sum_map_set {α : Type} (f : α → ℕ) :
    ∀ (l : List α) (i : ℕ) (x : α) (h : i < l.length),
      ((l.set i x).map f).sum + f (l.get ⟨i, h⟩) = (l.map f).sum + f x := by
  intro l
  induction l with
  | nil => intro i x h; simp at h
  | cons a l ih =>
    intro i x h
    cases i with
    | zero =>
      rw [show (a :: l).get ⟨0, h⟩ = a from rfl]
      simp only [List.set_cons_zero, List.map_cons, List.sum_cons]
      omega
    | succ i' =>
      have h' : i' < l.length := by simpa using h
      have := ih i' x h'
      rw [show (a :: l).get ⟨i' + 1, h⟩ = l.get ⟨i', h'⟩ from rfl]
      simp only [List.set_cons_succ, List.map_cons, List.sum_cons]
      omega

theorem hcount_addEdgeCore (d : Dcel) (i' j' : ℕ) (hi : i' < d.vertices.length)
    (hj : j' < d.vertices.length) (m0 : ℕ) :
    hcount (addEdgeCore d i' j') m0 =
      hcount d m0 + (if d.hedges.length = m0 then 1 else 0) +
        (if d.hedges.length + 1 = m0 then 1 else 0) := by
  set f : Vertex → ℕ := fun v => v.hedgelist.count m0 with hf
  set A : Vertex :=
    { getV d i' with hedgelist := (getV d i').hedgelist ++ [d.hedges.length] } with hA2
  set l1 : List Vertex := d.vertices.set i' A with hl1
  set B : Vertex :=
    { l1.getD j' default with
      hedgelist := (l1.getD j' default).hedgelist ++ [d.hedges.length + 1] } with hB2
  have hj1 : j' < l1.length := by rw [hl1]; simpa using hj
  have hveq : (addEdgeCore d i' j').vertices = l1.set j' B := rfl
  have hs1 := sum_map_set f d.vertices i' A hi
  have hs2 := sum_map_set f l1 j' B hj1
  have hfA : f A = f (d.vertices.get ⟨i', hi⟩) + (if d.hedges.length = m0 then 1 else 0) := by
    rw [hf, hA2]
    show ((getV d i').hedgelist ++ [d.hedges.length]).count m0 = _
    rw [getV, getD_eq_getElem _ _ hi]
    simp [List.count_append, List.count_singleton, List.get_eq_getElem]
  have hfB : f B = f (l1.get ⟨j', hj1⟩) + (if d.hedges.length + 1 = m0 then 1 else 0) := by
    rw [hf, hB2]
    show ((l1.getD j' default).hedgelist ++ [d.hedges.length + 1]).count m0 = _
    rw [getD_eq_getElem _ _ hj1]
    simp [List.count_append, List.count_singleton, List.get_eq_getElem]
  rw [hfA] at hs1
  rw [hfB] at hs2
  rw [← hl1] at hs1
  show ((addEdgeCore d i' j').vertices.map f).sum = (d.vertices.map f).sum + _ + _
  rw [hveq]
  omega

theorem countsOK_addEdgeCore (d : Dcel) (i' j' : ℕ) (hi : i' < d.vertices.length)
    (hj : j' < d.vertices.length) (h : CountsOK d) : CountsOK (addEdgeCore d i' j') := by
  intro m0
  rw [hcount_addEdgeCore d i' j' hi hj m0, h m0, addEdgeCore_hedges]
  simp only [List.length_append, List.length_cons, List.length_nil]
  split_ifs <;> omega

theorem twinOK_addEdgeCore (d : Dcel) (i' j' : ℕ) (h : TwinOK d) :
    TwinOK (addEdgeCore d i' j') := by
  intro m hm
  rw [addEdgeCore_hedges] at hm
  simp only [List.length_append, List.length_cons, List.length_nil] at hm
  have hlen : (addEdgeCore d i' j').hedges.length = d.hedges.length + 2 := by
    rw [addEdgeCore_hedges]; simp
  rcases lt_trichotomy m d.hedges.length with hlt | heq | hgt
  · obtain ⟨m', hm', hne, h1, h2⟩ := h m hlt
    exact ⟨m', by omega, hne, by rw [addEdgeCore_getH_old _ _ _ _ hlt]; exact h1,
      by rw [addEdgeCore_getH_old _ _ _ _ hm']; exact h2⟩
  · refine ⟨d.hedges.length + 1, by omega, by omega, ?_, ?_⟩
    · rw [heq, addEdgeCore_getH_new1]
    · rw [heq, addEdgeCore_getH_new2]
  · have heq2 : m = d.hedges.length + 1 := by omega
    refine ⟨d.hedges.length, by omega, by omega, ?_, ?_⟩
    · rw [heq2, addEdgeCore_getH_new2]
    · rw [addEdgeCore_getH_new1, heq2]

theorem addVerts_counts (vs : List (ℚ × ℚ)) (d : Dcel) (h : CountsOK d) :
    CountsOK (vs.foldl (fun acc p => add_vertex acc p.1 p.2) d) := by
  obtain ⟨hv, hh, _⟩ := addVerts_parts vs d
  intro m0
  unfold hcount
  rw [hv, hh, List.map_append, List.sum_append]
  have hz : ((vs.map fun p => (⟨p.1, p.2, []⟩ : Vertex)).map
      fun v => v.hedgelist.count m0).sum = 0 := by
    apply List.sum_eq_zero
    intro x hx
    rw [List.map_map] at hx
    obtain ⟨p, _, rfl⟩ := List.mem_map.mp hx
    rfl
  rw [hz]
  have := h m0
  unfold hcount at this
  omega

theorem addVerts_twins (vs : List (ℚ × ℚ)) (d : Dcel) (h : TwinOK d) :
    TwinOK (vs.foldl (fun acc p => add_vertex acc p.1 p.2) d) := by
  obtain ⟨_, hh, _⟩ := addVerts_parts vs d
  intro m hm
  rw [hh] at hm
  obtain ⟨m', hm', hne, h1, h2⟩ := h m hm
  exact ⟨m', by rw [hh]; exact hm', hne, by rw [getH, hh]; exact h1, by rw [getH, hh]; exact h2⟩

theorem addEdges_counts :
    ∀ (es : List (ℤ × ℤ)) (d0 d : Dcel),
      es.foldlM (fun acc e => add_edge acc e.1 e.2) d0 = .ok d → CountsOK d0 → CountsOK d := by
  intro es
  induction es with
  | nil =>
    intro d0 d h h0
    simp only [List.foldlM_nil] at h
    cases h
    exact h0
  | cons e es ih =>
    intro d0 d h h0
    rw [List.foldlM_cons] at h
    cases he : add_edge d0 e.1 e.2 with
    | error err =>
      rw [he] at h
      exact absurd h (by simp [show ∀ f : Dcel → Except PyErr Dcel,
        (Except.error err >>= f) = Except.error err from fun f => rfl])
    | ok d1 =>
      rw [he] at h
      obtain ⟨i', j', hi, hj, _, _, rfl⟩ := add_edge_ok_inv d0 e.1 e.2 d1 he
      exact ih _ d h (countsOK_addEdgeCore d0 i' j' hi hj h0)

theorem addEdges_twins :
    ∀ (es : List (ℤ × ℤ)) (d0 d : Dcel),
      es.foldlM (fun acc e => add_edge acc e.1 e.2) d0 = .ok d → TwinOK d0 → TwinOK d := by
  intro es
  induction es with
  | nil =>
    intro d0 d h h0
    simp only [List.foldlM_nil] at h
    cases h
    exact h0
  | cons e es ih =>
    intro d0 d h h0
    rw [List.foldlM_cons] at h
    cases he : add_edge d0 e.1 e.2 with
    | error err =>
      rw [he] at h
      exact absurd h (by simp [show ∀ f : Dcel → Except PyErr Dcel,
        (Except.error err >>= f) = Except.error err from fun f => rfl])
    | ok d1 =>
      rw [he] at h
      obtain ⟨i', j', hi, hj, _, _, rfl⟩ := add_edge_ok_inv d0 e.1 e.2 d1 he
      exact ih _ d h (twinOK_addEdgeCore d0 i' j' h0)

theorem emptyDcel_counts : CountsOK emptyDcel := by
  intro m
  simp [hcount, emptyDcel]

theorem emptyDcel_twins : TwinOK emptyDcel := by
  intro m hm
  simp [emptyDcel] at hm

theorem addPhase_counts (vs : List (ℚ × ℚ)) (es : List (ℤ × ℤ)) (d0 d : Dcel)
    (h : addPhase d0 vs es = .ok d) (h0 : CountsOK d0) : CountsOK d :=
  addEdges_counts es _ d h (addVerts_counts vs d0 h0)

theorem addPhase_twins (vs : List (ℚ × ℚ)) (es : List (ℤ × ℤ)) (d0 d : Dcel)
    (h : addPhase d0 vs es = .ok d) (h0 : TwinOK d0) : TwinOK d :=
  addEdges_twins es _ d h (addVerts_twins vs d0 h0)

/-! ### Consequences of `CountsOK` -/

theorem countsOK_mem_lt (d : Dcel) (h : CountsOK d) (vi m : ℕ)
    (hvi : vi < d.vertices.length) (hm : m ∈ (getV d vi).hedgelist) :
    m < d.hedges.length := by
  by_contra hge
  have hz : hcount d m = 0 := by rw [h m, if_neg hge]
  have hone : 0 < (getV d vi).hedgelist.count m := List.count_pos_iff.mpr hm
  have hle : (getV d vi).hedgelist.count m ≤ hcount d m := by
    unfold hcount
    apply List.single_le_sum (by simp)
    rw [getV, getD_eq_getElem _ _ hvi]
    exact List.mem_map_of_mem _ (List.getElem_mem _)
  omega

theorem countsOK_nodup (d : Dcel) (h : CountsOK d) (vi : ℕ)
    (hvi : vi < d.vertices.length) : (getV d vi).hedgelist.Nodup := by
  rw [List.nodup_iff_count_le_one]
  intro a
  have hle : (getV d vi).hedgelist.count a ≤ hcount d a := by
    unfold hcount
    apply List.single_le_sum (by simp)
    rw [getV, getD_eq_getElem _ _ hvi]
    exact List.mem_map_of_mem _ (List.getElem_mem _)
  have := h a
  split_ifs at this <;> omega

theorem countsOK_unique (d : Dcel) (h : CountsOK d) (vi vj m : ℕ)
    (hvi : vi < d.vertices.length) (hvj : vj < d.vertices.length)
    (hmi : m ∈ (getV d vi).hedgelist) (hmj : m ∈ (getV d vj).hedgelist) : vi = vj := by
  by_contra hne
  have key : ∀ a b : ℕ, a < b → b < d.vertices.length →
      m ∈ (getV d a).hedgelist → m ∈ (getV d b).hedgelist → False := by
    intro a b hab hb hma hmb
    have h2 := two_le_sum_map (fun v => v.hedgelist.count m) d.vertices a b hab hb
    have hca : 0 < (getV d a).hedgelist.count m := List.count_pos_iff.mpr hma
    have hcb : 0 < (getV d b).hedgelist.count m := List.count_pos_iff.mpr hmb
    have hga : (getV d a).hedgelist.count m =
        (d.vertices.get ⟨a, lt_trans hab hb⟩).hedgelist.count m := by
      rw [getV, getD_eq_getElem _ _ (lt_trans hab hb), List.get_eq_getElem]
    have hgb : (getV d b).hedgelist.count m =
        (d.vertices.get ⟨b, hb⟩).hedgelist.count m := by
      rw [getV, getD_eq_getElem _ _ hb, List.get_eq_getElem]
    have hcnt := h m
    unfold hcount at hcnt
    split_ifs at hcnt <;> omega
  rcases lt_or_gt_of_ne hne with hlt | hgt
  · exact key vi vj hlt hvj hmi hmj
  · exact key vj vi hgt hvi hmj hmi

theorem countsOK_exists (d : Dcel) (h : CountsOK d) (m : ℕ) (hm : m < d.hedges.length) :
    ∃ vi, vi < d.vertices.length ∧ m ∈ (getV d vi).hedgelist := by
  have hpos : 0 < hcount d m := by rw [h m, if_pos hm]; omega
  unfold hcount at hpos
  obtain ⟨vi, hvi, hfi⟩ := sum_map_pos_exists _ _ hpos
  refine ⟨vi, hvi, ?_⟩
  rw [getV, getD_eq_getElem _ _ hvi]
  have : 0 < (d.vertices.get ⟨vi, hvi⟩).hedgelist.count m := hfi
  rw [List.get_eq_getElem] at this
  exact List.count_pos_iff.mp this

/-! ### The add phase, edge by edge -/

theorem addEdgeCore_getV_xy (d : Dcel) (i' j' : ℕ) (hi : i' < d.vertices.length)
    (hj : j' < d.vertices.length) (vi : ℕ) :
    (getV (addEdgeCore d i' j') vi).x = (getV d vi).x ∧
    (getV (addEdgeCore d i' j') vi).y = (getV d vi).y := by
  by_cases h1 : vi = i'
  · by_cases h2 : vi = j'
    · subst h1; subst h2
      rw [addEdgeCore_getV_self d vi hi]
      exact ⟨rfl, rfl⟩
    · subst h1
      rw [addEdgeCore_getV_fst d vi j' (by omega) hi]
      exact ⟨rfl, rfl⟩
  · by_cases h2 : vi = j'
    · subst h2
      rw [addEdgeCore_getV_snd d i' vi (by omega) hj]
      exact ⟨rfl, rfl⟩
    · rw [addEdgeCore_getV_other d i' j' vi h1 h2]
      exact ⟨rfl, rfl⟩

theorem addEdges_spec :
    ∀ (es : List (ℤ × ℤ)) (d0 d : Dcel),
      es.foldlM (fun acc e => add_edge acc e.1 e.2) d0 = .ok d →
      d.vertices.length = d0.vertices.length ∧
      (∀ vi, (getV d vi).x = (getV d0 vi).x ∧ (getV d vi).y = (getV d0 vi).y) ∧
      d.hedges.length = d0.hedges.length + 2 * es.length ∧
      (∀ m, m < d0.hedges.length → getH d m = getH d0 m) ∧
      (∀ t, (ht : t < es.length) → ∃ i' j',
        i' < d0.vertices.length ∧ j' < d0.vertices.length ∧
        pyIdx d0.vertices.length (es.get ⟨t, ht⟩).1 = some i' ∧
        pyIdx d0.vertices.length (es.get ⟨t, ht⟩).2 = some j' ∧
        getH d (d0.hedges.length + 2 * t) =
          ⟨i', j', some (d0.hedges.length + 2 * t + 1), none, none, none⟩ ∧
        getH d (d0.hedges.length + 2 * t + 1) =
          ⟨j', i', some (d0.hedges.length + 2 * t), none, none, none⟩) := by
  intro es
  induction es with
  | nil =>
    intro d0 d h
    simp only [List.foldlM_nil] at h
    cases h
    exact ⟨rfl, fun vi => ⟨rfl, rfl⟩, by simp, fun m hm => rfl, fun t ht => absurd ht (by simp)⟩
  | cons e es ih =>
    intro d0 d h
    rw [List.foldlM_cons] at h
    cases he : add_edge d0 e.1 e.2 with
    | error err =>
      rw [he] at h
      exact absurd h (by simp [show ∀ f : Dcel → Except PyErr Dcel,
        (Except.error err >>= f) = Except.error err from fun f => rfl])
    | ok d1 =>
      rw [he] at h
      obtain ⟨i0, j0, hi0, hj0, hpi0, hpj0, rfl⟩ := add_edge_ok_inv d0 e.1 e.2 d1 he
      obtain ⟨ihv, ihxy, ihlen, ihold, ihper⟩ := ih _ d h
      have hclen : (addEdgeCore d0 i0 j0).hedges.length = d0.hedges.length + 2 := by
        rw [addEdgeCore_hedges]; simp
      have hcv : (addEdgeCore d0 i0 j0).vertices.length = d0.vertices.length :=
        addEdgeCore_vlen d0 i0 j0
    
      refine ⟨by rw [ihv, hcv], ?_, ?_, ?_, ?_⟩
      · intro vi
        obtain ⟨hx, hy⟩ := ihxy vi
        obtain ⟨hx2, hy2⟩ := addEdgeCore_getV_xy d0 i0 j0 hi0 hj0 vi
        exact ⟨by rw [hx, hx2], by rw [hy, hy2]⟩
      · rw [ihlen, hclen]
        simp only [List.length_cons]
        ring
      · intro m hm
        rw [ihold m (by omega), addEdgeCore_getH_old _ _ _ _ hm]
      · intro t ht
        cases t with
        | zero =>
          refine ⟨i0, j0, hi0, hj0, hpi0, hpj0, ?_, ?_⟩
          · rw [show d0.hedges.length + 2 * 0 = d0.hedges.length by ring]
            rw [ihold _ (by omega), addEdgeCore_getH_new1]
          · rw [show d0.hedges.length + 2 * 0 + 1 = d0.hedges.length + 1 by ring]
            rw [ihold _ (by omega), addEdgeCore_getH_new2]
            congr 2
        | succ t' =>
          have ht' : t' < es.length := by simpa using ht
          obtain ⟨i', j', hi', hj', hpi', hpj', hg1, hg2⟩ := ihper t' ht'
          refine ⟨i', j', by omega, by omega, ?_, ?_, ?_, ?_⟩
          · rw [show ((e :: es).get ⟨t' + 1, ht⟩) = es.get ⟨t', ht'⟩ from rfl]
            rw [← hcv]; exact hpi'
          · rw [show ((e :: es).get ⟨t' + 1, ht⟩) = es.get ⟨t', ht'⟩ from rfl]
            rw [← hcv]; exact hpj'
          · rw [show d0.hedges.length + 2 * (t' + 1) =
              (addEdgeCore d0 i0 j0).hedges.length + 2 * t' by omega]
            rw [hg1]
          · rw [show d0.hedges.length + 2 * (t' + 1) + 1 =
              (addEdgeCore d0 i0 j0).hedges.length + 2 * t' + 1 by omega]
            rw [hg2]
            congr 2
            rw [hclen]
            ring

/-! ### The linking phase: applyLinks characterization -/

theorem getD_eq_getElem_of_lt {α : Type} (l : List α) (i : ℕ) (x : α) (h : i < l.length) :
    l.getD i x = l[i] := by
  rw [List.getD_eq_getElem?_getD, List.getElem?_eq_getElem h, Option.getD_some]

theorem applyLinksStep_length (L : List ℕ) (hs : List HalfEdge) (i : ℕ) :
    (applyLinksStep L hs i).length = hs.length := by
  unfold applyLinksStep
  simp

theorem applyLinksStep_other (L : List ℕ) (hs : List HalfEdge) (i m : ℕ)
    (hm : m ≠ L.getD i 0) :
    (applyLinksStep L hs i).getD m default = hs.getD m default := by
  unfold applyLinksStep
  exact getD_set_ne _ _ _ _ (Ne.symm hm)

theorem applyLinksStep_geom (L : List ℕ) (hs : List HalfEdge) (i m : ℕ) :
    ((applyLinksStep L hs i).getD m default).origin = (hs.getD m default).origin ∧
    ((applyLinksStep L hs i).getD m default).dest = (hs.getD m default).dest ∧
    ((applyLinksStep L hs i).getD m default).twin = (hs.getD m default).twin ∧
    ((applyLinksStep L hs i).getD m default).face = (hs.getD m default).face := by
  by_cases hm : m = L.getD i 0
  · by_cases hlt : L.getD i 0 < hs.length
    · rw [hm]
      unfold applyLinksStep
      rw [getD_set_self _ _ _ hlt]
      exact ⟨rfl, rfl, rfl, rfl⟩
    · rw [hm]
      unfold applyLinksStep
      have hr : hs.getD (L.getD i 0) default = default := by
        rw [List.getD_eq_getElem?_getD, List.getElem?_eq_none (by omega)]
        rfl
      rw [List.getD_eq_getElem?_getD, List.getElem?_set, if_pos rfl, if_neg hlt, hr]
      exact ⟨rfl, rfl, rfl, rfl⟩
  · rw [applyLinksStep_other L hs i m hm]
    exact ⟨rfl, rfl, rfl, rfl⟩

theorem applyLinksStep_target (L : List ℕ) (hs : List HalfEdge) (i : ℕ)
    (ht : L.getD i 0 < hs.length) :
    (applyLinksStep L hs i).getD (L.getD i 0) default =
      { hs.getD (L.getD i 0) default with
        nexthedge := (hs.getD (L.getD ((i + 1) % L.length) 0) default).twin,
        prevhedge := some (L.getD ((i + (L.length - 1)) % L.length) 0) } := by
  unfold applyLinksStep
  exact getD_set_self _ _ _ ht

theorem applyLinks_upto (L : List ℕ) (hs : List HalfEdge) :
    ∀ p, p ≤ L.length →
      ((List.range p).foldl (applyLinksStep L) hs).length = hs.length ∧
      (∀ m,
        (((List.range p).foldl (applyLinksStep L) hs).getD m default).origin =
          (hs.getD m default).origin ∧
        (((List.range p).foldl (applyLinksStep L) hs).getD m default).dest =
          (hs.getD m default).dest ∧
        (((List.range p).foldl (applyLinksStep L) hs).getD m default).twin =
          (hs.getD m default).twin ∧
        (((List.range p).foldl (applyLinksStep L) hs).getD m default).face =
          (hs.getD m default).face) ∧
      (∀ m, (∀ k, k < p → L.getD k 0 ≠ m) →
        ((List.range p).foldl (applyLinksStep L) hs).getD m default = hs.getD m default) ∧
      (L.Nodup → (∀ a ∈ L, a < hs.length) →
        ∀ k, k < p →
          ((List.range p).foldl (applyLinksStep L) hs).getD (L.getD k 0) default =
            { hs.getD (L.getD k 0) default with
              nexthedge := (hs.getD (L.getD ((k + 1) % L.length) 0) default).twin,
              prevhedge := some (L.getD ((k + (L.length - 1)) % L.length) 0) }) := by
  intro p
  induction p with
  | zero =>
    intro _
    exact ⟨rfl, fun m => ⟨rfl, rfl, rfl, rfl⟩, fun m _ => rfl, fun _ _ k hk => absurd hk (by omega)⟩
  | succ p ih =>
    intro hp
    have hp' : p ≤ L.length := by omega
    have hpL : p < L.length := by omega
    obtain ⟨ihlen, ihgeom, ihother, ihdone⟩ := ih hp'
    have hstep : (List.range (p + 1)).foldl (applyLinksStep L) hs =
        applyLinksStep L ((List.range p).foldl (applyLinksStep L) hs) p := by
      rw [List.range_succ, List.foldl_append]
      rfl
    refine ⟨?_, ?_, ?_, ?_⟩
    · rw [hstep, applyLinksStep_length, ihlen]
    · intro m
      rw [hstep]
      obtain ⟨g1, g2, g3, g4⟩ := applyLinksStep_geom L ((List.range p).foldl (applyLinksStep L) hs) p m
      obtain ⟨e1, e2, e3, e4⟩ := ihgeom m
      exact ⟨g1.trans e1, g2.trans e2, g3.trans e3, g4.trans e4⟩
    · intro m hm
      rw [hstep, applyLinksStep_other L _ p m (by exact fun h => hm p (by omega) h.symm)]
      exact ihother m (fun k hk => hm k (by omega))
    · intro hnd hmem k hk
      rw [hstep]
      by_cases hkp : k = p
      · subst hkp
        have htgt : L.getD k 0 < ((List.range k).foldl (applyLinksStep L) hs).length := by
          rw [ihlen]
          exact hmem _ (by rw [getD_eq_getElem_of_lt _ _ _ hpL]; exact List.getElem_mem _)
        rw [applyLinksStep_target L _ k htgt]
        have hfix : ((List.range k).foldl (applyLinksStep L) hs).getD (L.getD k 0) default =
            hs.getD (L.getD k 0) default := by
          apply ihother
          intro k' hk' heq
          have hne : k' ≠ k := by omega
          have hk'L : k' < L.length := by omega
          rw [getD_eq_getElem_of_lt _ _ _ hk'L, getD_eq_getElem_of_lt _ _ _ hpL] at heq
          exact hne ((List.Nodup.getElem_inj_iff hnd).mp heq)
        have htwin : (((List.range k).foldl (applyLinksStep L) hs).getD
            (L.getD ((k + 1) % L.length) 0) default).twin =
            (hs.getD (L.getD ((k + 1) % L.length) 0) default).twin :=
          (ihgeom _).2.2.1
        rw [hfix, htwin]
      · have hkp' : k < p := by omega
        have hne : L.getD k 0 ≠ L.getD p 0 := by
          intro heq
          have hkL : k < L.length := by omega
          rw [getD_eq_getElem_of_lt _ _ _ hkL, getD_eq_getElem_of_lt _ _ _ hpL] at heq
          exact hkp ((List.Nodup.getElem_inj_iff hnd).mp heq)
        rw [applyLinksStep_other L _ p _ hne]
        exact ihdone hnd hmem k hkp'

theorem applyLinks_spec (L : List ℕ) (hs : List HalfEdge) :
    (applyLinks hs L).length = hs.length ∧
    (∀ m,
      ((applyLinks hs L).getD m default).origin = (hs.getD m default).origin ∧
      ((applyLinks hs L).getD m default).dest = (hs.getD m default).dest ∧
      ((applyLinks hs L).getD m default).twin = (hs.getD m default).twin ∧
      ((applyLinks hs L).getD m default).face = (hs.getD m default).face) ∧
    (∀ m, m ∉ L → (applyLinks hs L).getD m default = hs.getD m default) ∧
    (L.Nodup → (∀ a ∈ L, a < hs.length) →
      ∀ k, k < L.length →
        (applyLinks hs L).getD (L.getD k 0) default =
          { hs.getD (L.getD k 0) default with
            nexthedge := (hs.getD (L.getD ((k + 1) % L.length) 0) default).twin,
            prevhedge := some (L.getD ((k + (L.length - 1)) % L.length) 0) }) := by
  obtain ⟨h1, h2, h3, h4⟩ := applyLinks_upto L hs L.length (le_refl _)
  refine ⟨h1, h2, ?_, h4⟩
  intro m hm
  apply h3
  intro k hk heq
  apply hm
  rw [← heq, getD_eq_getElem_of_lt _ _ _ hk]
  exact List.getElem_mem _

/-! ### Geometry-preserving transformations and angle congruence -/

theorem geomEq_refl (d : Dcel) : GeomEq d d :=
  ⟨rfl, rfl, rfl, fun _ => ⟨rfl, rfl⟩, fun _ => ⟨rfl, rfl, rfl, rfl⟩⟩

theorem geomEq_trans (d0 d1 d2 : Dcel) (h1 : GeomEq d0 d1) (h2 : GeomEq d1 d2) :
    GeomEq d0 d2 := by
  obtain ⟨a1, b1, c1, e1, f1⟩ := h1
  obtain ⟨a2, b2, c2, e2, f2⟩ := h2
  refine ⟨a2.trans a1, b2.trans b1, c2.trans c1, ?_, ?_⟩
  · intro vi
    exact ⟨(e2 vi).1.trans (e1 vi).1, (e2 vi).2.trans (e1 vi).2⟩
  · intro m
    exact ⟨(f2 m).1.trans (f1 m).1, (f2 m).2.1.trans (f1 m).2.1,
      (f2 m).2.2.1.trans (f1 m).2.2.1, (f2 m).2.2.2.trans (f1 m).2.2.2⟩

theorem destination_congr (d0 d : Dcel) (h : GeomEq d0 d) (hi : ℕ) :
    destination d (getH d hi) = destination d0 (getH d0 hi) := by
  obtain ⟨_, _, _, _, hhe⟩ := h
  unfold destination
  rw [(hhe hi).2.2.1]
  cases htw : (getH d0 hi).twin with
  | none => exact (hhe hi).2.1
  | some t => exact (hhe t).1

theorem hedgeAngle_congr (d0 d : Dcel) (h : GeomEq d0 d) (hi : ℕ) :
    hedgeAngle d hi = hedgeAngle d0 hi := by
  obtain ⟨hvl, hhl, hfc, hxy, hhe⟩ := h
  unfold hedgeAngle originP destP
  rw [(hhe hi).1, destination_congr d0 d ⟨hvl, hhl, hfc, hxy, hhe⟩ hi]
  rw [(hxy (getH d0 hi).origin).1, (hxy (getH d0 hi).origin).2]
  rw [(hxy (destination d0 (getH d0 hi))).1, (hxy (destination d0 (getH d0 hi))).2]

theorem insertionSort_congr {α : Type} (r r' : α → α → Prop)
    (hdr : DecidableRel r) (hdr' : DecidableRel r')
    (h : ∀ a b, r a b ↔ r' a b) (l : List α) :
    @List.insertionSort α r hdr l = @List.insertionSort α r' hdr' l := by
  have hrr : r = r' := funext fun a => funext fun b => propext (h a b)
  subst hrr
  congr 1

theorem sortincident_congr (d0 d : Dcel) (h : GeomEq d0 d) (v : Vertex) :
    sortincident d v = sortincident d0 v := by
  unfold sortincident
  have : List.insertionSort (angleGE d) v.hedgelist =
      List.insertionSort (angleGE d0) v.hedgelist := by
    apply insertionSort_congr
    intro a b
    unfold angleGE
    rw [hedgeAngle_congr d0 d h a, hedgeAngle_congr d0 d h b]
  rw [this]

/-! ### One linking step -/

theorem linkStep_hedges (d : Dcel) (vi : ℕ) :
    (linkStep d vi).hedges = applyLinks d.hedges (sortincident d (getV d vi)).hedgelist := rfl

theorem linkStep_vertices (d : Dcel) (vi : ℕ) :
    (linkStep d vi).vertices = d.vertices.set vi (sortincident d (getV d vi)) := rfl

theorem linkStep_getV_self (d : Dcel) (vi : ℕ) (hvi : vi < d.vertices.length) :
    getV (linkStep d vi) vi = sortincident d (getV d vi) := by
  unfold getV
  rw [linkStep_vertices]
  exact getD_set_self _ _ _ hvi

theorem linkStep_getV_other (d : Dcel) (vi vj : ℕ) (hne : vi ≠ vj) :
    getV (linkStep d vi) vj = getV d vj := by
  unfold getV
  rw [linkStep_vertices]
  exact getD_set_ne _ _ _ _ hne

theorem linkStep_getH (d : Dcel) (vi m : ℕ) :
    getH (linkStep d vi) m =
      (applyLinks d.hedges (sortincident d (getV d vi)).hedgelist).getD m default := rfl

theorem linkStep_geomEq (d : Dcel) (vi : ℕ) : GeomEq d (linkStep d vi) := by
  obtain ⟨al1, al2, _, _⟩ := applyLinks_spec (sortincident d (getV d vi)).hedgelist d.hedges
  refine ⟨?_, ?_, rfl, ?_, ?_⟩
  · rw [linkStep_vertices]; simp
  · rw [linkStep_hedges]; exact al1
  · intro vj
    by_cases hne : vi = vj
    · subst hne
      unfold getV
      rw [linkStep_vertices, List.getD_eq_getElem?_getD, List.getElem?_set, if_pos rfl]
      by_cases hvi : vi < d.vertices.length
      · rw [if_pos hvi, Option.getD_some]
        exact ⟨rfl, rfl⟩
      · rw [if_neg hvi]
        have : d.vertices[vi]? = none := List.getElem?_eq_none (by omega)
        rw [← this, ← List.getD_eq_getElem?_getD]
        exact ⟨rfl, rfl⟩
    · rw [linkStep_getV_other d vi vj hne]
      exact ⟨rfl, rfl⟩
  · intro m
    rw [linkStep_getH]
    exact al2 m

theorem hcount_linkStep (d : Dcel) (vi : ℕ) (hvi : vi < d.vertices.length) (m0 : ℕ) :
    hcount (linkStep d vi) m0 = hcount d m0 := by
  have hs := sum_map_set (fun v => v.hedgelist.count m0) d.vertices vi
    (sortincident d (getV d vi)) hvi
  have hperm : (sortincident d (getV d vi)).hedgelist.count m0 =
      (d.vertices.get ⟨vi, hvi⟩).hedgelist.count m0 := by
    have hp := List.perm_insertionSort (angleGE d) (getV d vi).hedgelist
    rw [show (sortincident d (getV d vi)).hedgelist =
      List.insertionSort (angleGE d) (getV d vi).hedgelist from rfl]
    rw [hp.count_eq m0, getV, getD_eq_getElem _ _ hvi, List.get_eq_getElem]
  show ((linkStep d vi).vertices.map fun v => v.hedgelist.count m0).sum =
    (d.vertices.map fun v => v.hedgelist.count m0).sum
  rw [linkStep_vertices]
  omega

theorem countsOK_linkStep (d : Dcel) (vi : ℕ) (hvi : vi < d.vertices.length)
    (hc : CountsOK d) : CountsOK (linkStep d vi) := by
  intro m0
  rw [hcount_linkStep d vi hvi m0, hc m0]
  obtain ⟨al1, _, _, _⟩ := applyLinks_spec (sortincident d (getV d vi)).hedgelist d.hedges
  rw [show (linkStep d vi).hedges.length =
    (applyLinks d.hedges (sortincident d (getV d vi)).hedgelist).length from rfl, al1]

theorem linkStep_linkedAt (d : Dcel) (vi : ℕ) (hvi : vi < d.vertices.length)
    (hc : CountsOK d) :
    (getV (linkStep d vi) vi).hedgelist =
      List.insertionSort (angleGE d) (getV d vi).hedgelist ∧
    LinkedAt (linkStep d vi) ((getV (linkStep d vi) vi).hedgelist) := by
  have hL : (getV (linkStep d vi) vi).hedgelist =
      List.insertionSort (angleGE d) (getV d vi).hedgelist := by
    rw [linkStep_getV_self d vi hvi]
    rfl
  refine ⟨hL, ?_⟩
  rw [hL]
  set L := List.insertionSort (angleGE d) (getV d vi).hedgelist with hLdef
  have hperm : L.Perm (getV d vi).hedgelist := List.perm_insertionSort _ _
  have hnd : L.Nodup := hperm.nodup_iff.mpr (countsOK_nodup d hc vi hvi)
  have hmem : ∀ a ∈ L, a < d.hedges.length := by
    intro a ha
    exact countsOK_mem_lt d hc vi a hvi (hperm.mem_iff.mp ha)
  obtain ⟨al1, al2, al3, al4⟩ := applyLinks_spec L d.hedges
  intro k hk
  have hmain := al4 hnd hmem k hk
  have h1 : getH (linkStep d vi) (L.getD k 0) =
      (applyLinks d.hedges L).getD (L.getD k 0) default := by
    rw [linkStep_getH, hLdef]
    rfl
  have h2 : (getH (linkStep d vi) (L.getD ((k + 1) % L.length) 0)).twin =
      (d.hedges.getD (L.getD ((k + 1) % L.length) 0) default).twin := by
    rw [linkStep_getH, hLdef]
    exact (al2 _).2.2.1
  rw [h1, hmain, h2]
  exact ⟨rfl, rfl⟩

/-! ### The linking fold over all vertices -/

theorem linkVerts_append (l1 l2 : List ℕ) :
    ∀ d : Dcel, linkVerts d (l1 ++ l2) = linkVerts (linkVerts d l1) l2 := by
  induction l1 with
  | nil => intro d; rfl
  | cons a l1 ih => intro d; rw [List.cons_append, linkVerts, linkVerts, ih]

theorem linkVerts_range_spec (d0 : Dcel) (hc : CountsOK d0) :
    ∀ p, p ≤ d0.vertices.length →
      GeomEq d0 (linkVerts d0 (List.range p)) ∧
      CountsOK (linkVerts d0 (List.range p)) ∧
      (∀ vi, p ≤ vi → getV (linkVerts d0 (List.range p)) vi = getV d0 vi) ∧
      (∀ vi, vi < p →
        (getV (linkVerts d0 (List.range p)) vi).hedgelist =
          List.insertionSort (angleGE d0) (getV d0 vi).hedgelist ∧
        LinkedAt (linkVerts d0 (List.range p))
          ((getV (linkVerts d0 (List.range p)) vi).hedgelist)) := by
  intro p
  induction p with
  | zero =>
    intro _
    exact ⟨geomEq_refl d0, hc, fun vi _ => rfl, fun vi hvi => absurd hvi (by omega)⟩
  | succ p ih =>
    intro hp
    have hp' : p ≤ d0.vertices.length := by omega
    have hpV : p < d0.vertices.length := by omega
    obtain ⟨ihgeq, ihc, ihuntouched, ihdone⟩ := ih hp'
    set dp := linkVerts d0 (List.range p) with hdp
    have hstep : linkVerts d0 (List.range (p + 1)) = linkStep dp p := by
      rw [List.range_succ, linkVerts_append, ← hdp]
      rfl
    have hpVdp : p < dp.vertices.length := by rw [ihgeq.1]; exact hpV
    have hsort_eq : sortincident dp (getV dp p) = sortincident d0 (getV d0 p) := by
      rw [ihuntouched p (le_refl p), sortincident_congr d0 dp ihgeq]
    refine ⟨?_, ?_, ?_, ?_⟩
    · rw [hstep]
      exact geomEq_trans d0 dp (linkStep dp p) ihgeq (linkStep_geomEq dp p)
    · rw [hstep]
      exact countsOK_linkStep dp p hpVdp ihc
    · intro vi hvi
      rw [hstep, linkStep_getV_other dp p vi (by omega)]
      exact ihuntouched vi (by omega)
    · intro vi hvi
      by_cases hvip : vi = p
      · subst hvip
        obtain ⟨hL, hlinked⟩ := linkStep_linkedAt dp vi hpVdp ihc
        rw [hstep]
        constructor
        · rw [hL, ihuntouched vi (le_refl vi)]
          have : angleGE dp = angleGE d0 := by
            funext a b
            unfold angleGE
            rw [hedgeAngle_congr d0 dp ihgeq a, hedgeAngle_congr d0 dp ihgeq b]
          exact insertionSort_congr _ _ _ _
            (fun a b => by rw [this]) _
        · exact hlinked
      · have hvip' : vi < p := by omega
        obtain ⟨ihL, ihlinked⟩ := ihdone vi hvip'
        have hVkept : getV (linkStep dp p) vi = getV dp vi :=
          linkStep_getV_other dp p vi (by omega)
        rw [hstep, hVkept]
        refine ⟨ihL, ?_⟩
        -- the incident list of vi is disjoint from the sorted list of p
        set Lp := (sortincident dp (getV dp p)).hedgelist with hLp
        have hdisj : ∀ m ∈ (getV dp vi).hedgelist, m ∉ Lp := by
          intro m hm hmp
          have hm1 : m ∈ (getV dp vi).hedgelist := hm
          have hm2 : m ∈ (getV dp p).hedgelist := by
            have : Lp.Perm (getV dp p).hedgelist := List.perm_insertionSort _ _
            exact this.mem_iff.mp hmp
          have hviV : vi < dp.vertices.length := by rw [ihgeq.1]; omega
          exact (by omega : vi ≠ p) (countsOK_unique dp ihc vi p m hviV hpVdp hm1 hm2)
        obtain ⟨al1, al2, al3, al4⟩ := applyLinks_spec Lp dp.hedges
        intro k hk
        obtain ⟨ihnext, ihprev⟩ := ihlinked k hk
        have hmemk : (getV dp vi).hedgelist.getD k 0 ∈ (getV dp vi).hedgelist := by
          rw [getD_eq_getElem_of_lt _ _ _ hk]
          exact List.getElem_mem _
        have hkk : (k + 1) % (getV dp vi).hedgelist.length < (getV dp vi).hedgelist.length :=
          Nat.mod_lt _ (by omega)
        have hmeks : (getV dp vi).hedgelist.getD ((k + 1) % (getV dp vi).hedgelist.length) 0 ∈
            (getV dp vi).hedgelist := by
          rw [getD_eq_getElem_of_lt _ _ _ hkk]
          exact List.getElem_mem _
        have e1 : getH (linkStep dp p) ((getV dp vi).hedgelist.getD k 0) =
            getH dp ((getV dp vi).hedgelist.getD k 0) := by
          rw [linkStep_getH, ← hLp, al3 _ (hdisj _ hmemk)]
          rfl
        have e2 : (getH (linkStep dp p)
            ((getV dp vi).hedgelist.getD ((k + 1) % (getV dp vi).hedgelist.length) 0)).twin =
            (getH dp
            ((getV dp vi).hedgelist.getD ((k + 1) % (getV dp vi).hedgelist.length) 0)).twin := by
          rw [linkStep_getH, ← hLp]
          exact (al2 _).2.2.1
        rw [e1, e2]
        exact ⟨ihnext, ihprev⟩

theorem linkAll_spec (d0 : Dcel) (hc : CountsOK d0) :
    GeomEq d0 (linkAll d0) ∧ CountsOK (linkAll d0) ∧
    (∀ vi, vi < d0.vertices.length →
      (getV (linkAll d0) vi).hedgelist =
        List.insertionSort (angleGE d0) (getV d0 vi).hedgelist ∧
      LinkedAt (linkAll d0) ((getV (linkAll d0) vi).hedgelist)) ∧
    (∀ vi, d0.vertices.length ≤ vi → getV (linkAll d0) vi = getV d0 vi) := by
  obtain ⟨h1, h2, h3, h4⟩ := linkVerts_range_spec d0 hc d0.vertices.length (le_refl _)
  exact ⟨h1, h2, h4, h3⟩

/-! ### Face extraction only writes face fields -/

theorem setFace_keep (d : Dcel) (cur fi m : ℕ) :
    (getH (setFace d cur fi) m).origin = (getH d m).origin ∧
    (getH (setFace d cur fi) m).dest = (getH d m).dest ∧
    (getH (setFace d cur fi) m).twin = (getH d m).twin ∧
    (getH (setFace d cur fi) m).nexthedge = (getH d m).nexthedge ∧
    (getH (setFace d cur fi) m).prevhedge = (getH d m).prevhedge := by
  unfold setFace getH
  by_cases hm : m = cur
  · subst hm
    by_cases hlt : m < d.hedges.length
    · rw [getD_set_self _ _ _ hlt]
      exact ⟨rfl, rfl, rfl, rfl, rfl⟩
    · have hr : d.hedges.getD m default = default := by
        rw [List.getD_eq_getElem?_getD, List.getElem?_eq_none (by omega)]
        rfl
      rw [List.getD_eq_getElem?_getD, List.getElem?_set, if_pos rfl, if_neg hlt, hr]
      exact ⟨rfl, rfl, rfl, rfl, rfl⟩
  · rw [getD_set_ne _ _ _ _ (Ne.symm hm)]
    exact ⟨rfl, rfl, rfl, rfl, rfl⟩

theorem setFace_hlen (d : Dcel) (cur fi : ℕ) :
    (setFace d cur fi).hedges.length = d.hedges.length := by
  unfold setFace
  simp

theorem setFace_stepN (d : Dcel) (cur fi m : ℕ) :
    stepN (setFace d cur fi) m = stepN d m := by
  unfold stepN
  exact (setFace_keep d cur fi m).2.2.2.1

theorem assignFaceAux_succ (fi start n : ℕ) (d : Dcel) (cur : ℕ) :
    assignFaceAux fi start (n + 1) d cur =
      (match stepN (setFace d cur fi) cur with
       | none => setFace d cur fi
       | some nxt => if nxt = start then setFace d cur fi
                     else assignFaceAux fi start n (setFace d cur fi) nxt) := rfl

theorem assignFaceAux_keep (fi start : ℕ) :
    ∀ (fuel : ℕ) (d : Dcel) (cur m : ℕ),
      (getH (assignFaceAux fi start fuel d cur) m).origin = (getH d m).origin ∧
      (getH (assignFaceAux fi start fuel d cur) m).dest = (getH d m).dest ∧
      (getH (assignFaceAux fi start fuel d cur) m).twin = (getH d m).twin ∧
      (getH (assignFaceAux fi start fuel d cur) m).nexthedge = (getH d m).nexthedge ∧
      (getH (assignFaceAux fi start fuel d cur) m).prevhedge = (getH d m).prevhedge := by
  intro fuel
  induction fuel with
  | zero => intro d cur m; exact ⟨rfl, rfl, rfl, rfl, rfl⟩
  | succ n ih =>
    intro d cur m
    rw [assignFaceAux_succ]
    cases hs : stepN (setFace d cur fi) cur with
    | none => exact setFace_keep d cur fi m
    | some nxt =>
      dsimp only
      by_cases hx : nxt = start
      · rw [if_pos hx]
        exact setFace_keep d cur fi m
      · rw [if_neg hx]
        obtain ⟨a1, a2, a3, a4, a5⟩ := ih (setFace d cur fi) nxt m
        obtain ⟨b1, b2, b3, b4, b5⟩ := setFace_keep d cur fi m
        exact ⟨a1.trans b1, a2.trans b2, a3.trans b3, a4.trans b4, a5.trans b5⟩

theorem assignFaceAux_hlen (fi start : ℕ) :
    ∀ (fuel : ℕ) (d : Dcel) (cur : ℕ),
      (assignFaceAux fi start fuel d cur).hedges.length = d.hedges.length := by
  intro fuel
  induction fuel with
  | zero => intro d cur; rfl
  | succ n ih =>
    intro d cur
    rw [assignFaceAux_succ]
    cases hs : stepN (setFace d cur fi) cur with
    | none => exact setFace_hlen d cur fi
    | some nxt =>
      dsimp only
      by_cases hx : nxt = start
      · rw [if_pos hx]
        exact setFace_hlen d cur fi
      · rw [if_neg hx, ih]
        exact setFace_hlen d cur fi

theorem create_faces_keep (d : Dcel) :
    (create_faces d).vertices = d.vertices ∧
    (create_faces d).hedges.length = d.hedges.length ∧
    (∀ m,
      (getH (create_faces d) m).origin = (getH d m).origin ∧
      (getH (create_faces d) m).dest = (getH d m).dest ∧
      (getH (create_faces d) m).twin = (getH d m).twin ∧
      (getH (create_faces d) m).nexthedge = (getH d m).nexthedge ∧
      (getH (create_faces d) m).prevhedge = (getH d m).prevhedge) := by
  have main := List.foldlRecOn (motive := fun acc : Dcel =>
      acc.vertices = d.vertices ∧ acc.hedges.length = d.hedges.length ∧
      ∀ m,
        (getH acc m).origin = (getH d m).origin ∧
        (getH acc m).dest = (getH d m).dest ∧
        (getH acc m).twin = (getH d m).twin ∧
        (getH acc m).nexthedge = (getH d m).nexthedge ∧
        (getH acc m).prevhedge = (getH d m).prevhedge)
    (List.range d.hedges.length)
    (fun acc h =>
      if (getH acc h).face = none then
        assignFaceAux acc.faces.length h acc.hedges.length
          { acc with faces := acc.faces ++ [⟨some h, false⟩] } h
      else acc)
    d ⟨rfl, rfl, fun m => ⟨rfl, rfl, rfl, rfl, rfl⟩⟩
    (by
      intro acc hacc h _
      dsimp only
      by_cases hc : (getH acc h).face = none
      · rw [if_pos hc]
        obtain ⟨i1, i2, i3⟩ := hacc
        refine ⟨(assignFaceAux_vertices _ _ _ _ _).trans i1,
          (assignFaceAux_hlen _ _ _ _ _).trans i2, ?_⟩
        intro m
        obtain ⟨c1, c2, c3, c4, c5⟩ := i3 m
        obtain ⟨e1, e2, e3, e4, e5⟩ := assignFaceAux_keep acc.faces.length h
          acc.hedges.length { acc with faces := acc.faces ++ [⟨some h, false⟩] } h m
        exact ⟨e1.trans c1, e2.trans c2, e3.trans c3, e4.trans c4, e5.trans c5⟩
      · rw [if_neg hc]
        exact hacc)
  exact ⟨main.1, main.2.1, main.2.2⟩

/-! ### Transport of angles and links through face extraction -/

theorem destination_congr_fields (d0 d : Dcel)
    (hof : ∀ m, (getH d m).origin = (getH d0 m).origin ∧
      (getH d m).dest = (getH d0 m).dest ∧ (getH d m).twin = (getH d0 m).twin) (hi : ℕ) :
    destination d (getH d hi) = destination d0 (getH d0 hi) := by
  unfold destination
  rw [(hof hi).2.2]
  cases htw : (getH d0 hi).twin with
  | none => exact (hof hi).2.1
  | some t => exact (hof t).1

theorem hedgeAngle_congr_fields (d0 d : Dcel)
    (hxy : ∀ vi, (getV d vi).x = (getV d0 vi).x ∧ (getV d vi).y = (getV d0 vi).y)
    (hof : ∀ m, (getH d m).origin = (getH d0 m).origin ∧
      (getH d m).dest = (getH d0 m).dest ∧ (getH d m).twin = (getH d0 m).twin) (hi : ℕ) :
    hedgeAngle d hi = hedgeAngle d0 hi := by
  unfold hedgeAngle originP destP
  rw [(hof hi).1, destination_congr_fields d0 d hof hi]
  rw [(hxy (getH d0 hi).origin).1, (hxy (getH d0 hi).origin).2]
  rw [(hxy (destination d0 (getH d0 hi))).1, (hxy (destination d0 (getH d0 hi))).2]

theorem linkedAt_create_faces (d : Dcel) (L : List ℕ) (h : LinkedAt d L) :
    LinkedAt (create_faces d) L := by
  intro k hk
  obtain ⟨hn, hp⟩ := h k hk
  obtain ⟨-, -, hk3⟩ := create_faces_keep d
  constructor
  · rw [(hk3 _).2.2.2.1, hn, (hk3 _).2.2.1]
  · rw [(hk3 _).2.2.2.2, hp]

theorem mod_cycle_succ_pred (n k : ℕ) (hk : k < n) :
    ((k + (n - 1)) % n + 1) % n = k := by
  have h1 : ((k + (n - 1)) % n + 1) % n = ((k + (n - 1)) + 1) % n := Nat.mod_add_mod _ _ _
  rw [h1, show k + (n - 1) + 1 = k + n from by omega, Nat.add_mod_right, Nat.mod_eq_of_lt hk]

theorem hcount_create_faces (d : Dcel) (m : ℕ) : hcount (create_faces d) m = hcount d m := by
  unfold hcount
  rw [(create_faces_keep d).1]

theorem countsOK_create_faces (d : Dcel) (h : CountsOK d) : CountsOK (create_faces d) := by
  intro m
  rw [hcount_create_faces, (create_faces_keep d).2.1, h m]

theorem getV_create_faces (d : Dcel) (vi : ℕ) : getV (create_faces d) vi = getV d vi := by
  unfold getV
  rw [(create_faces_keep d).1]

/-! ### The fully built state: everything the construction establishes -/

theorem addPhase_empty_spec (vs : List (ℚ × ℚ)) (es : List (ℤ × ℤ)) (da : Dcel)
    (ha : addPhase emptyDcel vs es = .ok da) :
    da.vertices.length = vs.length ∧
    (∀ vi, (hvi : vi < vs.length) →
      (getV da vi).x = (vs.get ⟨vi, hvi⟩).1 ∧ (getV da vi).y = (vs.get ⟨vi, hvi⟩).2) ∧
    da.hedges.length = 2 * es.length ∧
    (∀ t, (ht : t < es.length) → ∃ i' j', i' < vs.length ∧ j' < vs.length ∧
      pyIdx vs.length (es.get ⟨t, ht⟩).1 = some i' ∧
      pyIdx vs.length (es.get ⟨t, ht⟩).2 = some j' ∧
      getH da (2 * t) = ⟨i', j', some (2 * t + 1), none, none, none⟩ ∧
      getH da (2 * t + 1) = ⟨j', i', some (2 * t), none, none, none⟩) ∧
    CountsOK da ∧ TwinOK da ∧ da.faces = [] ∧ (∀ m, (getH da m).face = none) := by
  unfold addPhase at ha
  obtain ⟨hv, hh, hf⟩ := addVerts_parts vs emptyDcel
  obtain ⟨s1, s2, s3, s4, s5⟩ := addEdges_spec es _ da ha
  have hdvlen : (vs.foldl (fun acc p => add_vertex acc p.1 p.2) emptyDcel).vertices.length =
      vs.length := by
    rw [hv]
    simp [emptyDcel]
  have hdvh : (vs.foldl (fun acc p => add_vertex acc p.1 p.2) emptyDcel).hedges.length = 0 := by
    rw [hh]
    rfl
  have hlen : da.vertices.length = vs.length := by rw [s1, hdvlen]
  have hhlen : da.hedges.length = 2 * es.length := by rw [s3, hdvh]; ring
  have hper : ∀ t, (ht : t < es.length) → ∃ i' j', i' < vs.length ∧ j' < vs.length ∧
      pyIdx vs.length (es.get ⟨t, ht⟩).1 = some i' ∧
      pyIdx vs.length (es.get ⟨t, ht⟩).2 = some j' ∧
      getH da (2 * t) = ⟨i', j', some (2 * t + 1), none, none, none⟩ ∧
      getH da (2 * t + 1) = ⟨j', i', some (2 * t), none, none, none⟩ := by
    intro t ht
    obtain ⟨i', j', hi', hj', hpi, hpj, hg1, hg2⟩ := s5 t ht
    rw [hdvlen] at hi' hj' hpi hpj
    rw [hdvh] at hg1 hg2
    simp only [Nat.zero_add] at hg1 hg2
    exact ⟨i', j', hi', hj', hpi, hpj, hg1, hg2⟩
  refine ⟨hlen, ?_, hhlen, hper, addPhase_counts vs es emptyDcel da (by unfold addPhase; exact ha)
    emptyDcel_counts, addPhase_twins vs es emptyDcel da (by unfold addPhase; exact ha)
    emptyDcel_twins, ?_, ?_⟩
  · intro vi hvi
    obtain ⟨hx, hy⟩ := s2 vi
    have hvget : getV (vs.foldl (fun acc p => add_vertex acc p.1 p.2) emptyDcel) vi =
        ⟨(vs.get ⟨vi, hvi⟩).1, (vs.get ⟨vi, hvi⟩).2, []⟩ := by
      unfold getV
      rw [hv]
      have hmlen : vi < (List.map (fun p => (⟨p.1, p.2, []⟩ : Vertex)) vs).length := by
        simpa using hvi
      rw [show emptyDcel.vertices = ([] : List Vertex) from rfl, List.nil_append]
      rw [getD_eq_getElem _ _ hmlen, List.getElem_map]
      rw [List.get_eq_getElem]
    rw [hx, hy, hvget]
    exact ⟨rfl, rfl⟩
  · rw [(addEdges_faces es _ da ha), hf]
    rfl
  · intro m
    by_cases hm : m < da.hedges.length
    · rw [hhlen] at hm
      rcases Nat.even_or_odd m with ⟨t, hteq⟩ | ⟨t, hteq⟩
      · have ht : t < es.length := by omega
        obtain ⟨i', j', _, _, _, _, hg1, _⟩ := hper t ht
        rw [show m = 2 * t from by omega, hg1]
      · have ht : t < es.length := by omega
        obtain ⟨i', j', _, _, _, _, _, hg2⟩ := hper t ht
        rw [show m = 2 * t + 1 from by omega, hg2]
    · unfold getH
      rw [List.getD_eq_getElem?_getD, List.getElem?_eq_none (by omega)]
      rfl

theorem build_linked (vs : List (ℚ × ℚ)) (es : List (ℤ × ℤ)) (d : Dcel)
    (hb : build_dcel emptyDcel vs es = .ok d) :
    d.vertices.length = vs.length ∧
    (∀ vi, (hvi : vi < vs.length) →
      (getV d vi).x = (vs.get ⟨vi, hvi⟩).1 ∧ (getV d vi).y = (vs.get ⟨vi, hvi⟩).2) ∧
    d.hedges.length = 2 * es.length ∧
    (∀ t, (ht : t < es.length) → ∃ i' j', i' < vs.length ∧ j' < vs.length ∧
      pyIdx vs.length (es.get ⟨t, ht⟩).1 = some i' ∧
      pyIdx vs.length (es.get ⟨t, ht⟩).2 = some j' ∧
      (getH d (2 * t)).origin = i' ∧ (getH d (2 * t)).dest = j' ∧
      (getH d (2 * t)).twin = some (2 * t + 1) ∧
      (getH d (2 * t + 1)).origin = j' ∧ (getH d (2 * t + 1)).dest = i' ∧
      (getH d (2 * t + 1)).twin = some (2 * t)) ∧
    CountsOK d ∧ TwinOK d ∧
    (∀ vi, vi < vs.length →
      List.Sorted (angleGE d) (getV d vi).hedgelist ∧
      LinkedAt d ((getV d vi).hedgelist)) := by
  obtain ⟨da, ha, rfl⟩ := build_ok_inv emptyDcel vs es d hb
  obtain ⟨a1, a2, a3, a4, a5, a6, a7, a8⟩ := addPhase_empty_spec vs es da ha
  obtain ⟨lgeq, lc, ldone, luntouched⟩ := linkAll_spec da a5
  obtain ⟨k1, k2, k3⟩ := create_faces_keep (linkAll da)
  have hvlen : (create_faces (linkAll da)).vertices.length = vs.length := by
    rw [k1, lgeq.1, a1]
  have hhlen : (create_faces (linkAll da)).hedges.length = 2 * es.length := by
    rw [k2, lgeq.2.1, a3]
  have hgetV : ∀ vi, getV (create_faces (linkAll da)) vi = getV (linkAll da) vi :=
    getV_create_faces (linkAll da)
  have hang2 : ∀ hi, hedgeAngle (create_faces (linkAll da)) hi = hedgeAngle (linkAll da) hi := by
    apply hedgeAngle_congr_fields
    · intro vi
      rw [hgetV vi]
      exact ⟨rfl, rfl⟩
    · intro m
      exact ⟨(k3 m).1, (k3 m).2.1, (k3 m).2.2.1⟩
  have hang1 : ∀ hi, hedgeAngle (linkAll da) hi = hedgeAngle da hi :=
    hedgeAngle_congr da (linkAll da) lgeq
  have hrel : ∀ a b, angleGE (create_faces (linkAll da)) a b ↔ angleGE da a b := by
    intro a b
    unfold angleGE
    rw [hang2 a, hang2 b, hang1 a, hang1 b]
  refine ⟨hvlen, ?_, hhlen, ?_, ?_, ?_, ?_⟩
  · intro vi hvi
    rw [hgetV vi]
    have hcoord := lgeq.2.2.2.1 vi
    obtain ⟨hx, hy⟩ := a2 vi hvi
    exact ⟨hcoord.1.trans hx, hcoord.2.trans hy⟩
  · intro t ht
    obtain ⟨i', j', hi', hj', hpi, hpj, hg1, hg2⟩ := a4 t ht
    have f1 := k3 (2 * t)
    have f2 := k3 (2 * t + 1)
    have g1 := lgeq.2.2.2.2 (2 * t)
    have g2 := lgeq.2.2.2.2 (2 * t + 1)
    refine ⟨i', j', hi', hj', hpi, hpj, ?_, ?_, ?_, ?_, ?_, ?_⟩
    · rw [f1.1, g1.1, hg1]
    · rw [f1.2.1, g1.2.1, hg1]
    · rw [f1.2.2.1, g1.2.2.1, hg1]
    · rw [f2.1, g2.1, hg2]
    · rw [f2.2.1, g2.2.1, hg2]
    · rw [f2.2.2.1, g2.2.2.1, hg2]
  · -- CountsOK
    apply countsOK_create_faces
    exact lc
  · -- TwinOK
    intro m hm
    have hmda : m < da.hedges.length := by rw [k2, lgeq.2.1] at hm; exact hm
    obtain ⟨m', hm', hne, h1, h2⟩ := a6 m hmda
    refine ⟨m', by rw [k2, lgeq.2.1]; exact hm', hne, ?_, ?_⟩
    · rw [(k3 m).2.2.1, (lgeq.2.2.2.2 m).2.2.1, h1]
    · rw [(k3 m').2.2.1, (lgeq.2.2.2.2 m').2.2.1, h2]
  · intro vi hvi
    have hviV : vi < da.vertices.length := by rw [a1]; exact hvi
    obtain ⟨hL, hlinked⟩ := ldone vi hviV
    have hlist : (getV (create_faces (linkAll da)) vi).hedgelist =
        (getV (linkAll da) vi).hedgelist := by rw [hgetV vi]
    constructor
    · rw [hlist, hL]
      have hsorted : List.Sorted (angleGE da)
          (List.insertionSort (angleGE da) (getV da vi).hedgelist) := by
        letI : IsTotal ℕ (angleGE da) :=
          ⟨fun a b => le_total (hedgeAngle da b) (hedgeAngle da a)⟩
        letI : IsTrans ℕ (angleGE da) :=
          ⟨fun a b c h1 h2 => le_trans h2 h1⟩
        exact List.sorted_insertionSort _ _
      exact hsorted.imp (fun hab => (hrel _ _).mpr hab)
    · rw [hlist]
      exact linkedAt_create_faces _ _ hlinked

/-- C3: a successful `build_dcel(vertices, edges)` from a fresh `Dcel` adds
all vertices (in input order, with their coordinates), then all edges in
input order (half-edges `2t` and `2t+1` are the mutually twinned pair of
edge `t`, with Python-resolved endpoint positions), and then for every
vertex the final incident list is sorted by descending angle and, with `n`
its length, position `k` carries `nexthedge = incident[(k+1) mod n].twin`
and `prevhedge = incident[(k-1) mod n]`. -/
theorem C3_build_dcel_spec (vs : List (ℚ × ℚ)) (es : List (ℤ × ℤ)) (d : Dcel)
    (hb : build_dcel emptyDcel vs es = .ok d) :
    d.vertices.length = vs.length ∧
    (∀ vi, (hvi : vi < vs.length) →
      (getV d vi).x = (vs.get ⟨vi, hvi⟩).1 ∧ (getV d vi).y = (vs.get ⟨vi, hvi⟩).2) ∧
    d.hedges.length = 2 * es.length ∧
    (∀ t, (ht : t < es.length) → ∃ i' j', i' < vs.length ∧ j' < vs.length ∧
      pyIdx vs.length (es.get ⟨t, ht⟩).1 = some i' ∧
      pyIdx vs.length (es.get ⟨t, ht⟩).2 = some j' ∧
      (getH d (2 * t)).origin = i' ∧ (getH d (2 * t)).dest = j' ∧
      (getH d (2 * t)).twin = some (2 * t + 1) ∧
      (getH d (2 * t + 1)).origin = j' ∧ (getH d (2 * t + 1)).dest = i' ∧
      (getH d (2 * t + 1)).twin = some (2 * t)) ∧
    (∀ vi, vi < vs.length →
      List.Sorted (angleGE d) (getV d vi).hedgelist ∧
      LinkedAt d ((getV d vi).hedgelist)) := by
  obtain ⟨b1, b2, b3, b4, b5, b6, b7⟩ := build_linked vs es d hb
  exact ⟨b1, b2, b3, b4, b7⟩

/-- Witness for C3: the one-edge build. -/
theorem C3_witness :
    oneEdgeDcel.vertices.length = oneEdgeVs.length ∧
    (∀ vi, (hvi : vi < oneEdgeVs.length) →
      (getV oneEdgeDcel vi).x = (oneEdgeVs.get ⟨vi, hvi⟩).1 ∧
      (getV oneEdgeDcel vi).y = (oneEdgeVs.get ⟨vi, hvi⟩).2) ∧
    oneEdgeDcel.hedges.length = 2 * oneEdgeEs.length ∧
    (∀ t, (ht : t < oneEdgeEs.length) → ∃ i' j',
      i' < oneEdgeVs.length ∧ j' < oneEdgeVs.length ∧
      pyIdx oneEdgeVs.length (oneEdgeEs.get ⟨t, ht⟩).1 = some i' ∧
      pyIdx oneEdgeVs.length (oneEdgeEs.get ⟨t, ht⟩).2 = some j' ∧
      (getH oneEdgeDcel (2 * t)).origin = i' ∧ (getH oneEdgeDcel (2 * t)).dest = j' ∧
      (getH oneEdgeDcel (2 * t)).twin = some (2 * t + 1) ∧
      (getH oneEdgeDcel (2 * t + 1)).origin = j' ∧ (getH oneEdgeDcel (2 * t + 1)).dest = i' ∧
      (getH oneEdgeDcel (2 * t + 1)).twin = some (2 * t)) ∧
    (∀ vi, vi < oneEdgeVs.length →
      List.Sorted (angleGE oneEdgeDcel) (getV oneEdgeDcel vi).hedgelist ∧
      LinkedAt oneEdgeDcel ((getV oneEdgeDcel vi).hedgelist)) :=
  C3_build_dcel_spec oneEdgeVs oneEdgeEs oneEdgeDcel build_oneEdge

/-- C2 (amended): after `build_dcel`, `next` and `prev` are not mutually
inverse; what holds instead is that for every half-edge `h` of the built
`Dcel`, `h.prevhedge.nexthedge` is `h.twin`. -/
theorem C2_prev_next_twin (vs : List (ℚ × ℚ)) (es : List (ℤ × ℤ)) (d : Dcel)
    (hb : build_dcel emptyDcel vs es = .ok d) :
    ∀ m, m < d.hedges.length →
      (getH d ((getH d m).prevhedge.getD 0)).nexthedge = (getH d m).twin := by
  obtain ⟨b1, b2, b3, b4, b5, b6, b7⟩ := build_linked vs es d hb
  intro m hm
  obtain ⟨vi, hvi, hmem⟩ := countsOK_exists d b5 m hm
  have hviN : vi < vs.length := by rw [← b1]; exact hvi
  obtain ⟨-, hlinked⟩ := b7 vi hviN
  obtain ⟨k, hk⟩ := List.mem_iff_get.mp hmem
  have hkL : (k : ℕ) < (getV d vi).hedgelist.length := k.isLt
  have hgetk : (getV d vi).hedgelist.getD (k : ℕ) 0 = m := by
    rw [getD_eq_getElem_of_lt _ _ _ hkL, ← List.get_eq_getElem, hk]
  have hn : 0 < (getV d vi).hedgelist.length := by omega
  obtain ⟨-, hprev⟩ := hlinked (k : ℕ) hkL
  rw [hgetk] at hprev
  have hk'L : ((k : ℕ) + ((getV d vi).hedgelist.length - 1)) % (getV d vi).hedgelist.length <
      (getV d vi).hedgelist.length := Nat.mod_lt _ hn
  obtain ⟨hnext', -⟩ := hlinked _ hk'L
  have hcyc : (((k : ℕ) + ((getV d vi).hedgelist.length - 1)) %
      (getV d vi).hedgelist.length + 1) % (getV d vi).hedgelist.length = (k : ℕ) :=
    mod_cycle_succ_pred _ _ hkL
  rw [hprev, Option.getD_some, hnext', hcyc, hgetk]

/-- Witness for the amended C2: half-edge 0 of the one-edge build. -/
theorem C2_witness :
    0 < oneEdgeDcel.hedges.length ∧
    (getH oneEdgeDcel ((getH oneEdgeDcel 0).prevhedge.getD 0)).nexthedge =
      (getH oneEdgeDcel 0).twin :=
  ⟨by decide, C2_prev_next_twin oneEdgeVs oneEdgeEs oneEdgeDcel build_oneEdge 0 (by decide)⟩

/-! ### Iterating the next map when it is a permutation -/

theorem iterNext_zero (d : Dcel) (m : ℕ) : iterNext d 0 m = some m := rfl

theorem iterNext_succ (d : Dcel) (k m : ℕ) :
    iterNext d (k + 1) m =
      (match stepN d m with
       | none => none
       | some m' => iterNext d k m') := rfl

theorem iterNext_lt (d : Dcel) (hv : ValidNext d) :
    ∀ k m, m < d.hedges.length →
      ∃ m', m' < d.hedges.length ∧ iterNext d k m = some m' := by
  intro k
  induction k with
  | zero => intro m hm; exact ⟨m, hm, rfl⟩
  | succ k ih =>
    intro m hm
    obtain ⟨s, hs, hstep⟩ := hv.1 m hm
    obtain ⟨m', hm', hit⟩ := ih s hs
    refine ⟨m', hm', ?_⟩
    rw [iterNext_succ, hstep]
    exact hit

theorem iterNext_add (d : Dcel) :
    ∀ a b m m', iterNext d a m = some m' → iterNext d (a + b) m = iterNext d b m' := by
  intro a
  induction a with
  | zero =>
    intro b m m' h
    rw [iterNext_zero] at h
    cases h
    rw [Nat.zero_add]
  | succ a ih =>
    intro b m m' h
    rw [iterNext_succ] at h
    rw [show a + 1 + b = (a + b) + 1 from by omega, iterNext_succ]
    cases hs : stepN d m with
    | none => rw [hs] at h; exact absurd h (by simp)
    | some s =>
      rw [hs] at h
      exact ih b s m' h

theorem iterNext_cancel (d : Dcel) (hv : ValidNext d) :
    ∀ k m1 m2, m1 < d.hedges.length → m2 < d.hedges.length →
      iterNext d k m1 = iterNext d k m2 → m1 = m2 := by
  intro k
  induction k with
  | zero => intro m1 m2 _ _ h; rw [iterNext_zero, iterNext_zero] at h; exact Option.some.inj h
  | succ k ih =>
    intro m1 m2 hm1 hm2 h
    obtain ⟨s1, hs1, hstep1⟩ := hv.1 m1 hm1
    obtain ⟨s2, hs2, hstep2⟩ := hv.1 m2 hm2
    rw [iterNext_succ, hstep1, iterNext_succ, hstep2] at h
    have hs12 : s1 = s2 := ih s1 s2 hs1 hs2 h
    exact hv.2 m1 m2 hm1 hm2 (by rw [hstep1, hstep2, hs12])

theorem iterNext_return (d : Dcel) (hv : ValidNext d) (m : ℕ) (hm : m < d.hedges.length) :
    ∃ c, 0 < c ∧ c ≤ d.hedges.length ∧ iterNext d c m = some m := by
  have hglt : ∀ i : ℕ, (iterNext d i m).getD 0 < d.hedges.length := by
    intro i
    obtain ⟨m', hm', hit⟩ := iterNext_lt d hv i m hm
    rw [hit]
    exact hm'
  have hgsome : ∀ i : ℕ, iterNext d i m = some ((iterNext d i m).getD 0) := by
    intro i
    obtain ⟨m', hm', hit⟩ := iterNext_lt d hv i m hm
    rw [hit]
    rfl
  have hN : 0 < d.hedges.length := by omega
  have hcard : Fintype.card (Fin d.hedges.length) < Fintype.card (Fin (d.hedges.length + 1)) := by
    simp
  obtain ⟨i, j, hne, heq⟩ := Fintype.exists_ne_map_eq_of_card_lt
    (fun i : Fin (d.hedges.length + 1) =>
      (⟨(iterNext d (i : ℕ) m).getD 0, hglt (i : ℕ)⟩ : Fin d.hedges.length)) hcard
  have hveq : iterNext d (i : ℕ) m = iterNext d (j : ℕ) m := by
    have h0 : (iterNext d (i : ℕ) m).getD 0 = (iterNext d (j : ℕ) m).getD 0 :=
      congrArg Fin.val (by exact heq)
    rw [hgsome (i : ℕ), hgsome (j : ℕ), h0]
  have key : ∀ a b : ℕ, a < b → b ≤ d.hedges.length →
      iterNext d a m = iterNext d b m →
      ∃ c, 0 < c ∧ c ≤ d.hedges.length ∧ iterNext d c m = some m := by
    intro a b hab hb hiter
    obtain ⟨w, hw, hitw⟩ := iterNext_lt d hv (b - a) m hm
    have h1 : iterNext d b m = iterNext d a w := by
      rw [show b = (b - a) + a from by omega]
      exact iterNext_add d (b - a) a m w hitw
    have h2 : iterNext d a w = iterNext d a m := by rw [← h1, hiter]
    have hwm : w = m := iterNext_cancel d hv a w m hw hm h2
    exact ⟨b - a, by omega, by omega, by rw [hwm] at hitw; exact hitw⟩
  rcases lt_or_gt_of_ne hne with hlt | hgt
  · exact key (i : ℕ) (j : ℕ) (by exact_mod_cast hlt) (by omega) hveq
  · exact key (j : ℕ) (i : ℕ) (by exact_mod_cast hgt) (by omega) hveq.symm

theorem iterNext_one (d : Dcel) (m : ℕ) : iterNext d 1 m = stepN d m := by
  cases hstep : stepN d m with
  | none => rw [iterNext_succ, hstep]
  | some s => rw [iterNext_succ, hstep]; rfl

theorem iterNext_mult (d : Dcel) (c a : ℕ) (hret : iterNext d c a = some a) :
    ∀ q, iterNext d (q * c) a = some a := by
  intro q
  induction q with
  | zero => rw [Nat.zero_mul]; exact iterNext_zero d a
  | succ q ih =>
    rw [show (q + 1) * c = q * c + c from by ring, iterNext_add d (q * c) c a a ih]
    exact hret

theorem reach_trans (d : Dcel) (a b e : ℕ) (h1 : Reach d a b) (h2 : Reach d b e) :
    Reach d a e := by
  obtain ⟨k1, hk1⟩ := h1
  obtain ⟨k2, hk2⟩ := h2
  exact ⟨k1 + k2, by rw [iterNext_add d k1 k2 a b hk1]; exact hk2⟩

theorem reach_symm (d : Dcel) (hv : ValidNext d) (a b : ℕ) (ha : a < d.hedges.length)
    (h : Reach d a b) : Reach d b a := by
  obtain ⟨k, hk⟩ := h
  obtain ⟨c, hc0, _, hcret⟩ := iterNext_return d hv a ha
  have hq : k < (k + 1) * c := by
    have : k + 1 ≤ (k + 1) * c := Nat.le_mul_of_pos_right _ hc0
    omega
  refine ⟨(k + 1) * c - k, ?_⟩
  have h1 : iterNext d ((k + 1) * c) a = some a := iterNext_mult d c a hcret (k + 1)
  have h2 : iterNext d (k + ((k + 1) * c - k)) a = iterNext d ((k + 1) * c - k) b :=
    iterNext_add d k _ a b hk
  rw [show k + ((k + 1) * c - k) = (k + 1) * c from by omega] at h2
  rw [← h2]
  exact h1

theorem iterNext_cycle_ne (d : Dcel) (hv : ValidNext d) (start : ℕ)
    (hs : start < d.hedges.length) (c : ℕ)
    (hcmin : ∀ k, 0 < k → k < c → iterNext d k start ≠ some start) :
    ∀ i j, i < c → j < c → i ≠ j → iterNext d i start ≠ iterNext d j start := by
  have key : ∀ i j, i < j → j < c → iterNext d i start ≠ iterNext d j start := by
    intro i j hij hj heq
    obtain ⟨w, hw, hitw⟩ := iterNext_lt d hv (j - i) start hs
    have h1 : iterNext d j start = iterNext d i w := by
      rw [show j = (j - i) + i from by omega]
      exact iterNext_add d (j - i) i start w hitw
    have h2 : iterNext d i w = iterNext d i start := by rw [← h1, heq]
    have hwm : w = start := iterNext_cancel d hv i w start hw hs h2
    rw [hwm] at hitw
    exact hcmin (j - i) (by omega) (by omega) hitw
  intro i j hi hj hne
  rcases lt_or_gt_of_ne hne with hlt | hgt
  · exact key i j hlt hj
  · exact fun heq => key j i hgt hi heq.symm

theorem walkEdges_succ_eq (d : Dcel) (start fuel cur : ℕ) :
    walkEdges d start (fuel + 1) cur =
      cur :: (match stepN d cur with
              | none => []
              | some nxt => if nxt = start then [] else walkEdges d start fuel nxt) := rfl

theorem walkEdges_cycle (d : Dcel) (hv : ValidNext d) (start : ℕ)
    (hs : start < d.hedges.length) (c : ℕ) (hc0 : 0 < c)
    (hcret : iterNext d c start = some start)
    (hcmin : ∀ k, 0 < k → k < c → iterNext d k start ≠ some start) :
    ∀ fuel j, j < c → c - j ≤ fuel →
      walkEdges d start fuel ((iterNext d j start).getD 0) =
        (List.range (c - j)).map (fun k => (iterNext d (j + k) start).getD 0) := by
  intro fuel
  induction fuel with
  | zero => intro j hj hcj; omega
  | succ fuel ih =>
    intro j hj hcj
    obtain ⟨mj, hmj, hitj⟩ := iterNext_lt d hv j start hs
    have hcur : (iterNext d j start).getD 0 = mj := by rw [hitj]; rfl
    have hnextit : iterNext d (j + 1) start = stepN d mj := by
      rw [iterNext_add d j 1 start mj hitj, iterNext_one]
    obtain ⟨s, hsN, hstep⟩ := hv.1 mj hmj
    rw [hcur, walkEdges_succ_eq, hstep]
    dsimp only
    by_cases hss : s = start
    · rw [if_pos hss]
      have hj1 : j + 1 = c := by
        by_contra hne
        have hj1c : j + 1 < c := by omega
        exact hcmin (j + 1) (by omega) hj1c (by rw [hnextit, hstep, hss])
      have hcj1 : c - j = 1 := by omega
      have hone : (iterNext d (j + 0) start).getD 0 = mj := by
        rw [Nat.add_zero, hitj]
        rfl
      rw [hcj1, show List.range 1 = [0] from rfl, List.map_singleton, hone]
    · rw [if_neg hss]
      have hj1 : j + 1 < c := by
        rcases Nat.lt_or_ge (j + 1) c with h | h
        · exact h
        · have hj1c : j + 1 = c := by omega
          rw [← hj1c] at hcret
          rw [hnextit, hstep] at hcret
          exact absurd (Option.some.inj hcret) hss
      have hsval : (iterNext d (j + 1) start).getD 0 = s := by
        rw [hnextit, hstep]
        rfl
      have := ih (j + 1) hj1 (by omega)
      rw [hsval] at this
      rw [this]
      have hsplit : c - j = (c - (j + 1)) + 1 := by omega
      rw [hsplit, List.range_succ_eq_map]
      simp only [List.map_cons, List.map_map]
      congr 1
      · rw [Nat.add_zero, hitj]
        rfl
      · apply List.map_congr_left
        intro k _
        show (iterNext d (j + 1 + k) start).getD 0 = (iterNext d (j + (k + 1)) start).getD 0
        rw [show j + 1 + k = j + (k + 1) from by omega]

/-! ### The boundary walk assigns exactly one cycle -/

theorem setFace_getH (d : Dcel) (cur fi : ℕ) (hcur : cur < d.hedges.length) (m : ℕ) :
    getH (setFace d cur fi) m =
      if m = cur then { getH d cur with face := some fi } else getH d m := by
  unfold setFace getH
  by_cases hm : m = cur
  · rw [if_pos hm, hm]
    exact getD_set_self _ _ _ hcur
  · rw [if_neg hm]
    exact getD_set_ne _ _ _ _ (Ne.symm hm)

theorem iterNext_congr (da db : Dcel) (hstep : ∀ mm, stepN da mm = stepN db mm) :
    ∀ k m, iterNext da k m = iterNext db k m := by
  intro k
  induction k with
  | zero => intro m; rfl
  | succ k ih =>
    intro m
    rw [iterNext_succ, iterNext_succ, hstep m]
    cases stepN db m with
    | none => rfl
    | some s => exact ih s

theorem reach_congr (da db : Dcel) (hstep : ∀ mm, stepN da mm = stepN db mm) (a b : ℕ) :
    Reach da a b ↔ Reach db a b := by
  unfold Reach
  constructor
  · rintro ⟨k, hk⟩
    exact ⟨k, by rw [← iterNext_congr da db hstep k a]; exact hk⟩
  · rintro ⟨k, hk⟩
    exact ⟨k, by rw [iterNext_congr da db hstep k a]; exact hk⟩

theorem walkEdges_congr (da db : Dcel) (hstep : ∀ mm, stepN da mm = stepN db mm) (start : ℕ) :
    ∀ fuel cur, walkEdges da start fuel cur = walkEdges db start fuel cur := by
  intro fuel
  induction fuel with
  | zero => intro cur; rfl
  | succ fuel ih =>
    intro cur
    rw [walkEdges_succ_eq, walkEdges_succ_eq, hstep cur]
    cases stepN db cur with
    | none => rfl
    | some nxt =>
      dsimp only
      rw [ih]

theorem cycle_val_ne (d : Dcel) (hv : ValidNext d) (start : ℕ)
    (hs : start < d.hedges.length) (c : ℕ)
    (hcmin : ∀ k, 0 < k → k < c → iterNext d k start ≠ some start) :
    ∀ i j, i < c → j < c → i ≠ j →
      (iterNext d i start).getD 0 ≠ (iterNext d j start).getD 0 := by
  intro i j hi hj hne heq
  obtain ⟨mi, hmi, hiti⟩ := iterNext_lt d hv i start hs
  obtain ⟨mj, hmj, hitj⟩ := iterNext_lt d hv j start hs
  rw [hiti, hitj] at heq
  simp only [Option.getD_some] at heq
  exact iterNext_cycle_ne d hv start hs c hcmin i j hi hj hne (by rw [hiti, hitj, heq])

theorem cycle_mem_iff (d : Dcel) (hv : ValidNext d) (start : ℕ)
    (hs : start < d.hedges.length) (c : ℕ) (mm : ℕ) :
    mm ∈ (List.range c).map (fun k => (iterNext d k start).getD 0) ↔
      ∃ k, k < c ∧ iterNext d k start = some mm := by
  rw [List.mem_map]
  constructor
  · rintro ⟨k, hk, hval⟩
    rw [List.mem_range] at hk
    obtain ⟨mk, hmk, hitk⟩ := iterNext_lt d hv k start hs
    refine ⟨k, hk, ?_⟩
    rw [hitk]
    rw [hitk] at hval
    simp only [Option.getD_some] at hval
    rw [hval]
  · rintro ⟨k, hk, hit⟩
    exact ⟨k, List.mem_range.mpr hk, by rw [hit]; rfl⟩

theorem reach_iff_lt_period (d : Dcel) (start : ℕ) (c : ℕ) (hc0 : 0 < c)
    (hcret : iterNext d c start = some start) (mm : ℕ) :
    Reach d start mm ↔ ∃ k, k < c ∧ iterNext d k start = some mm := by
  constructor
  · rintro ⟨k, hk⟩
    refine ⟨k % c, Nat.mod_lt _ hc0, ?_⟩
    have hq : iterNext d (c * (k / c)) start = some start := by
      rw [Nat.mul_comm]
      exact iterNext_mult d c start hcret (k / c)
    have := iterNext_add d (c * (k / c)) (k % c) start start hq
    rw [Nat.div_add_mod] at this
    rw [← this]
    exact hk
  · rintro ⟨k, _, hk⟩
    exact ⟨k, hk⟩

theorem reach_lt (d : Dcel) (hv : ValidNext d) (a mm : ℕ) (ha : a < d.hedges.length)
    (h : Reach d a mm) : mm < d.hedges.length := by
  obtain ⟨k, hk⟩ := h
  obtain ⟨m', hm', hit⟩ := iterNext_lt d hv k a ha
  rw [hit] at hk
  cases hk
  exact hm'

theorem assignFaceAux_cycle (d : Dcel) (hv : ValidNext d) (start : ℕ)
    (hs : start < d.hedges.length) (c : ℕ) (hc0 : 0 < c)
    (hcret : iterNext d c start = some start)
    (hcmin : ∀ k, 0 < k → k < c → iterNext d k start ≠ some start) (fi : ℕ) :
    ∀ fuel j d', (∀ mm, stepN d' mm = stepN d mm) →
      d'.hedges.length = d.hedges.length → j < c → c - j ≤ fuel →
      ∀ mm, getH (assignFaceAux fi start fuel d' ((iterNext d j start).getD 0)) mm =
        (if mm ∈ (List.range (c - j)).map (fun k => (iterNext d (j + k) start).getD 0)
         then { getH d' mm with face := some fi } else getH d' mm) := by
  intro fuel
  induction fuel with
  | zero => intro j d' _ _ hj hcj; omega
  | succ fuel ih =>
    intro j d' hsame hlen hj hcj mm
    obtain ⟨mj, hmj, hitj⟩ := iterNext_lt d hv j start hs
    have hcur : (iterNext d j start).getD 0 = mj := by rw [hitj]; rfl
    have hnextit : iterNext d (j + 1) start = stepN d mj := by
      rw [iterNext_add d j 1 start mj hitj, iterNext_one]
    obtain ⟨s, hsN, hstep⟩ := hv.1 mj hmj
    have hmjd' : mj < d'.hedges.length := by rw [hlen]; exact hmj
    have hstepd'' : stepN (setFace d' mj fi) mj = some s := by
      rw [setFace_stepN, hsame, hstep]
    rw [hcur, assignFaceAux_succ, hstepd'']
    dsimp only
    have hgetd'' := setFace_getH d' mj fi hmjd'
    by_cases hss : s = start
    · rw [if_pos hss]
      have hj1 : j + 1 = c := by
        by_contra hne
        exact hcmin (j + 1) (by omega) (by omega) (by rw [hnextit, hstep, hss])
      have hone : (iterNext d (j + 0) start).getD 0 = mj := by rw [Nat.add_zero, hcur]
      rw [show c - j = 1 from by omega, show List.range 1 = [0] from rfl,
        List.map_singleton, hone]
      rw [hgetd'' mm]
      by_cases hmmc : mm = mj
      · rw [if_pos hmmc, if_pos (by rw [hmmc]; exact List.mem_singleton_self mj), hmmc]
      · rw [if_neg hmmc, if_neg (by simp [hmmc])]
    · rw [if_neg hss]
      have hj1 : j + 1 < c := by
        rcases Nat.lt_or_ge (j + 1) c with h | h
        · exact h
        · have hj1c : j + 1 = c := by omega
          rw [← hj1c] at hcret
          rw [hnextit, hstep] at hcret
          exact absurd (Option.some.inj hcret) hss
      have hsval : (iterNext d (j + 1) start).getD 0 = s := by
        rw [hnextit, hstep]
        rfl
      have hsame2 : ∀ m0, stepN (setFace d' mj fi) m0 = stepN d m0 := by
        intro m0
        rw [setFace_stepN, hsame]
      have hlen2 : (setFace d' mj fi).hedges.length = d.hedges.length := by
        rw [setFace_hlen, hlen]
      have hih := ih (j + 1) (setFace d' mj fi) hsame2 hlen2 hj1 (by omega)
      rw [← hsval, hih mm]
      have hlist : (List.range (c - j)).map (fun k => (iterNext d (j + k) start).getD 0) =
          mj :: (List.range (c - (j + 1))).map
            (fun k => (iterNext d (j + 1 + k) start).getD 0) := by
        rw [show c - j = (c - (j + 1)) + 1 from by omega, List.range_succ_eq_map]
        simp only [List.map_cons, List.map_map]
        congr 1
        apply List.map_congr_left
        intro k _
        show (iterNext d (j + (k + 1)) start).getD 0 = (iterNext d (j + 1 + k) start).getD 0
        rw [show j + (k + 1) = j + 1 + k from by omega]
      rw [hlist]
      have hmjnotail : mj ∉ (List.range (c - (j + 1))).map
          (fun k => (iterNext d (j + 1 + k) start).getD 0) := by
        intro hmem
        obtain ⟨k, hk, hval⟩ := List.mem_map.mp hmem
        rw [List.mem_range] at hk
        exact cycle_val_ne d hv start hs c hcmin (j + 1 + k) j (by omega) hj (by omega)
          (by rw [hval, hcur])
      by_cases hmmtail : mm ∈ (List.range (c - (j + 1))).map
          (fun k => (iterNext d (j + 1 + k) start).getD 0)
      · rw [if_pos hmmtail, if_pos (List.mem_cons_of_mem mj hmmtail)]
        have hmmne : mm ≠ mj := by
          intro heq
          rw [heq] at hmmtail
          exact hmjnotail hmmtail
        rw [hgetd'' mm, if_neg hmmne]
      · rw [if_neg hmmtail, hgetd'' mm]
        by_cases hmmc : mm = mj
        · rw [if_pos hmmc, if_pos (by rw [hmmc]; exact List.mem_cons_self mj _), hmmc]
        · rw [if_neg hmmc, if_neg (by simp [hmmc, hmmtail])]

/-! ### The next map of a fully linked Dcel is a permutation -/

theorem mod_succ_inj (n k1 k2 : ℕ) (h1 : k1 < n) (h2 : k2 < n)
    (h : (k1 + 1) % n = (k2 + 1) % n) : k1 = k2 := by
  rcases Nat.lt_or_ge (k1 + 1) n with ha | ha
  · rcases Nat.lt_or_ge (k2 + 1) n with hb | hb
    · rw [Nat.mod_eq_of_lt ha, Nat.mod_eq_of_lt hb] at h
      omega
    · have hk2 : k2 + 1 = n := by omega
      rw [Nat.mod_eq_of_lt ha, hk2, Nat.mod_self] at h
      omega
  · have hk1 : k1 + 1 = n := by omega
    rcases Nat.lt_or_ge (k2 + 1) n with hb | hb
    · rw [hk1, Nat.mod_self, Nat.mod_eq_of_lt hb] at h
      omega
    · omega

theorem mem_getD_pos {m : ℕ} {L : List ℕ} (h : m ∈ L) :
    ∃ k, k < L.length ∧ L.getD k 0 = m := by
  obtain ⟨⟨k, hk⟩, hget⟩ := List.mem_iff_get.mp h
  refine ⟨k, hk, ?_⟩
  rw [getD_eq_getElem_of_lt _ _ _ hk]
  rw [List.get_eq_getElem] at hget
  exact hget

theorem getD_mem0 {L : List ℕ} {k : ℕ} (hk : k < L.length) : L.getD k 0 ∈ L := by
  rw [getD_eq_getElem_of_lt _ _ _ hk]
  exact List.getElem_mem hk

theorem validNext_of (d : Dcel) (hc : CountsOK d) (ht : TwinOK d)
    (hl : ∀ vi, vi < d.vertices.length → LinkedAt d (getV d vi).hedgelist) :
    ValidNext d := by
  constructor
  · intro m hm
    obtain ⟨vi, hvi, hmem⟩ := countsOK_exists d hc m hm
    obtain ⟨k, hk, hkval⟩ := mem_getD_pos hmem
    obtain ⟨hnext, -⟩ := hl vi hvi k hk
    rw [hkval] at hnext
    have hn0 : 0 < (getV d vi).hedgelist.length := by omega
    have hamem : (getV d vi).hedgelist.getD
        ((k + 1) % (getV d vi).hedgelist.length) 0 ∈ (getV d vi).hedgelist :=
      getD_mem0 (Nat.mod_lt _ hn0)
    have haN : (getV d vi).hedgelist.getD
        ((k + 1) % (getV d vi).hedgelist.length) 0 < d.hedges.length :=
      countsOK_mem_lt d hc vi _ hvi hamem
    obtain ⟨a', ha'N, -, hatw, -⟩ := ht _ haN
    refine ⟨a', ha'N, ?_⟩
    rw [stepN, hnext, hatw]
  · intro m1 m2 hm1 hm2 heq
    obtain ⟨vi, hvi, hmem1⟩ := countsOK_exists d hc m1 hm1
    obtain ⟨vj, hvj, hmem2⟩ := countsOK_exists d hc m2 hm2
    obtain ⟨k1, hk1, hk1val⟩ := mem_getD_pos hmem1
    obtain ⟨k2, hk2, hk2val⟩ := mem_getD_pos hmem2
    obtain ⟨hnext1, -⟩ := hl vi hvi k1 hk1
    obtain ⟨hnext2, -⟩ := hl vj hvj k2 hk2
    rw [hk1val] at hnext1
    rw [hk2val] at hnext2
    have hn1 : 0 < (getV d vi).hedgelist.length := by omega
    have hn2 : 0 < (getV d vj).hedgelist.length := by omega
    have hp1 : (k1 + 1) % (getV d vi).hedgelist.length < (getV d vi).hedgelist.length :=
      Nat.mod_lt _ hn1
    have hp2 : (k2 + 1) % (getV d vj).hedgelist.length < (getV d vj).hedgelist.length :=
      Nat.mod_lt _ hn2
    have hamem : (getV d vi).hedgelist.getD
        ((k1 + 1) % (getV d vi).hedgelist.length) 0 ∈ (getV d vi).hedgelist :=
      getD_mem0 hp1
    have hbmem : (getV d vj).hedgelist.getD
        ((k2 + 1) % (getV d vj).hedgelist.length) 0 ∈ (getV d vj).hedgelist :=
      getD_mem0 hp2
    have haN : (getV d vi).hedgelist.getD
        ((k1 + 1) % (getV d vi).hedgelist.length) 0 < d.hedges.length :=
      countsOK_mem_lt d hc vi _ hvi hamem
    have hbN : (getV d vj).hedgelist.getD
        ((k2 + 1) % (getV d vj).hedgelist.length) 0 < d.hedges.length :=
      countsOK_mem_lt d hc vj _ hvj hbmem
    obtain ⟨a', ha'N, -, hatw, ha'tw⟩ := ht _ haN
    obtain ⟨b', hb'N, -, hbtw, hb'tw⟩ := ht _ hbN
    have hstep : (getH d ((getV d vi).hedgelist.getD
          ((k1 + 1) % (getV d vi).hedgelist.length) 0)).twin =
        (getH d ((getV d vj).hedgelist.getD
          ((k2 + 1) % (getV d vj).hedgelist.length) 0)).twin := by
      rw [← hnext1, ← hnext2]
      exact heq
    rw [hatw, hbtw] at hstep
    have hab' : a' = b' := Option.some.inj hstep
    rw [hab'] at ha'tw
    rw [ha'tw] at hb'tw
    have hab : (getV d vi).hedgelist.getD ((k1 + 1) % (getV d vi).hedgelist.length) 0 =
        (getV d vj).hedgelist.getD ((k2 + 1) % (getV d vj).hedgelist.length) 0 :=
      Option.some.inj hb'tw
    have hvij : vi = vj := by
      apply countsOK_unique d hc vi vj _ hvi hvj hamem
      rw [hab]
      exact hbmem
    subst hvij
    have hnodup : (getV d vi).hedgelist.Nodup := countsOK_nodup d hc vi hvi
    have hposeq : (k1 + 1) % (getV d vi).hedgelist.length =
        (k2 + 1) % (getV d vi).hedgelist.length := by
      have hab2 := hab
      rw [getD_eq_getElem_of_lt _ _ _ hp1, getD_eq_getElem_of_lt _ _ _ hp2] at hab2
      exact (List.Nodup.getElem_inj_iff hnodup).mp hab2
    have hkk : k1 = k2 := mod_succ_inj (getV d vi).hedgelist.length k1 k2 hk1 hk2 hposeq
    rw [← hk1val, ← hk2val, hkk]

theorem exists_min_period (d : Dcel) (hv : ValidNext d) (m : ℕ)
    (hm : m < d.hedges.length) :
    ∃ c, 0 < c ∧ c ≤ d.hedges.length ∧ iterNext d c m = some m ∧
      ∀ k, 0 < k → k < c → iterNext d k m ≠ some m := by
  obtain ⟨c0, hc00, hc0N, hret0⟩ := iterNext_return d hv m hm
  have hex : ∃ k, 0 < k ∧ iterNext d k m = some m := ⟨c0, hc00, hret0⟩
  classical
  obtain ⟨hpos, hret⟩ := Nat.find_spec hex
  refine ⟨Nat.find hex, hpos, le_trans (Nat.find_min' hex ⟨hc00, hret0⟩) hc0N, hret, ?_⟩
  intro k hk0 hkc hkret
  exact absurd ⟨hk0, hkret⟩ (Nat.find_min hex hkc)

/-! ### The face-extraction fold, step by step -/

theorem create_faces_eq (d : Dcel) :
    create_faces d =
      { (List.range d.hedges.length).foldl faceStep d with
        faces := ((List.range d.hedges.length).foldl faceStep d).faces.map
          fun f => if area ((List.range d.hedges.length).foldl faceStep d) f < 0
            then { f with external := true } else f } := rfl

theorem faceStep_inv (d1 : Dcel) (hv : ValidNext d1) (acc : Dcel) (p : ℕ)
    (hpN : p < d1.hedges.length) (hinv : FoldInv d1 p acc) :
    FoldInv d1 (p + 1) (faceStep acc p) := by
  obtain ⟨i1, i2, i3, i4, i5⟩ := hinv
  by_cases hfp : (getH acc p).face = none
  · unfold faceStep
    rw [if_pos hfp]
    obtain ⟨c, hc0, hcN, hcret, hcmin⟩ := exists_min_period d1 hv p hpN
    have hstepF : ∀ mm, stepN { acc with faces := acc.faces ++ [⟨some p, false⟩] } mm
        = stepN d1 mm := fun mm => i2 mm
    have hlenF : ({ acc with faces := acc.faces ++ [⟨some p, false⟩] } : Dcel).hedges.length
        = d1.hedges.length := i1
    have hcyc := assignFaceAux_cycle d1 hv p hpN c hc0 hcret hcmin acc.faces.length
      acc.hedges.length 0 { acc with faces := acc.faces ++ [⟨some p, false⟩] }
      hstepF hlenF hc0 (by omega)
    simp only [Nat.sub_zero, Nat.zero_add, iterNext_zero, Option.getD_some] at hcyc
    set r := assignFaceAux acc.faces.length p acc.hedges.length
      { acc with faces := acc.faces ++ [⟨some p, false⟩] } p with hr
    have hmem : ∀ mm, (mm ∈ (List.range c).map (fun k => (iterNext d1 k p).getD 0)
        ↔ Reach d1 p mm) := by
      intro mm
      rw [cycle_mem_iff d1 hv p hpN c mm]
      exact (reach_iff_lt_period d1 p c hc0 hcret mm).symm
    have hface_r : ∀ mm, (getH r mm).face =
        if mm ∈ (List.range c).map (fun k => (iterNext d1 k p).getD 0)
        then some acc.faces.length else (getH acc mm).face := by
      intro mm
      rw [hcyc mm]
      by_cases hmm : mm ∈ (List.range c).map (fun k => (iterNext d1 k p).getD 0)
      · rw [if_pos hmm, if_pos hmm]
      · rw [if_neg hmm, if_neg hmm]
        rfl
    have hrfl : r.faces = acc.faces ++ [⟨some p, false⟩] := by
      rw [hr]
      exact assignFaceAux_faces _ _ _ _ _
    refine ⟨?_, ?_, ?_, ?_, ?_⟩
    · rw [hr]
      exact (assignFaceAux_hlen _ _ _ _ _).trans i1
    · intro mm
      rw [hr, stepN, (assignFaceAux_keep _ _ _ _ _ mm).2.2.2.1]
      exact i2 mm
    · intro t ht
      have htlen : t < acc.faces.length + 1 := by
        rw [hrfl] at ht
        simpa using ht
      rcases Nat.lt_or_ge t acc.faces.length with htold | htnew
      · obtain ⟨w, hwN, hgf, hiff⟩ := i3 t htold
        refine ⟨w, hwN, ?_, ?_⟩
        · rw [getF, hrfl, getD_append_left _ _ _ htold]
          exact hgf
        · intro mm
          rw [hface_r mm]
          by_cases hmm : mm ∈ (List.range c).map (fun k => (iterNext d1 k p).getD 0)
          · rw [if_pos hmm]
            constructor
            · intro heq
              exact absurd (Option.some.inj heq) (by omega)
            · intro hrw
              exfalso
              have hpm : Reach d1 p mm := (hmem mm).mp hmm
              have h1 : Reach d1 mm p := reach_symm d1 hv p mm hpN hpm
              have h2 : Reach d1 w p := reach_trans d1 w mm p hrw h1
              have h3 : (getH acc p).face = some t := (hiff p).mpr h2
              rw [hfp] at h3
              exact Option.noConfusion h3
          · rw [if_neg hmm]
            exact hiff mm
      · have htt : t = acc.faces.length := by omega
        subst htt
        refine ⟨p, hpN, ?_, ?_⟩
        · rw [getF, hrfl, getD_append_right _ _ _ (le_refl _), Nat.sub_self]
          rfl
        · intro mm
          rw [hface_r mm]
          by_cases hmm : mm ∈ (List.range c).map (fun k => (iterNext d1 k p).getD 0)
          · rw [if_pos hmm]
            constructor
            · intro _
              exact (hmem mm).mp hmm
            · intro _
              rfl
          · rw [if_neg hmm]
            constructor
            · intro heq
              rcases i4 mm with hnone | ⟨t', ht', heq'⟩
              · rw [hnone] at heq
                exact Option.noConfusion heq
              · rw [heq'] at heq
                exact absurd (Option.some.inj heq) (by omega)
            · intro hrw
              exact absurd ((hmem mm).mpr hrw) hmm
    · intro mm
      rw [hface_r mm]
      by_cases hmm : mm ∈ (List.range c).map (fun k => (iterNext d1 k p).getD 0)
      · rw [if_pos hmm]
        right
        refine ⟨acc.faces.length, ?_, rfl⟩
        rw [hrfl]
        simp
      · rw [if_neg hmm]
        rcases i4 mm with hnone | ⟨t, ht, heq⟩
        · left
          exact hnone
        · right
          refine ⟨t, ?_, heq⟩
          rw [hrfl]
          simp only [List.length_append, List.length_singleton]
          omega
    · intro q hq
      rw [hface_r q]
      rcases Nat.lt_or_ge q p with hqp | hqp
      · by_cases hmm : q ∈ (List.range c).map (fun k => (iterNext d1 k p).getD 0)
        · rw [if_pos hmm]
          exact Option.some_ne_none _
        · rw [if_neg hmm]
          exact i5 q hqp
      · have hqq : q = p := by omega
        subst hqq
        rw [if_pos ((hmem q).mpr ⟨0, rfl⟩)]
        exact Option.some_ne_none _
  · unfold faceStep
    rw [if_neg hfp]
    refine ⟨i1, i2, i3, i4, ?_⟩
    intro q hq
    rcases Nat.lt_or_ge q p with hqp | hqp
    · exact i5 q hqp
    · have hqq : q = p := by omega
      subst hqq
      exact hfp

theorem faceFold_inv (d1 : Dcel) (hv : ValidNext d1) (hf0 : d1.faces = [])
    (hface0 : ∀ mm, (getH d1 mm).face = none) :
    ∀ p, p ≤ d1.hedges.length → FoldInv d1 p ((List.range p).foldl faceStep d1) := by
  intro p
  induction p with
  | zero =>
    intro _
    simp only [List.range_zero, List.foldl_nil]
    refine ⟨rfl, fun mm => rfl, ?_, fun mm => Or.inl (hface0 mm),
      fun q hq => absurd hq (by omega)⟩
    intro t ht
    rw [hf0] at ht
    simp at ht
  | succ p ih =>
    intro hp
    rw [List.range_succ, List.foldl_append, List.foldl_cons, List.foldl_nil]
    exact faceStep_inv d1 hv _ p (by omega) (ih (by omega))

/-! ### Everything face extraction establishes, as seen on the final Dcel -/

theorem create_faces_full (d1 : Dcel) (hv : ValidNext d1) (hf0 : d1.faces = [])
    (hface0 : ∀ mm, (getH d1 mm).face = none) :
    (create_faces d1).hedges.length = d1.hedges.length ∧
    (∀ mm, stepN (create_faces d1) mm = stepN d1 mm) ∧
    (∀ t, t < (create_faces d1).faces.length → ∃ w, w < d1.hedges.length ∧
      getF (create_faces d1) t = ⟨some w, false⟩ ∧
      (∀ mm, ((getH (create_faces d1) mm).face = some t ↔ Reach d1 w mm))) ∧
    (∀ mm, (getH (create_faces d1) mm).face = none ∨
      ∃ t, t < (create_faces d1).faces.length ∧
        (getH (create_faces d1) mm).face = some t) ∧
    (∀ q, q < d1.hedges.length → (getH (create_faces d1) q).face ≠ none) := by
  obtain ⟨i1, i2, i3, i4, i5⟩ :=
    faceFold_inv d1 hv hf0 hface0 d1.hedges.length (le_refl _)
  have hhedges : (create_faces d1).hedges =
      ((List.range d1.hedges.length).foldl faceStep d1).hedges := rfl
  have hgetH : ∀ mm, getH (create_faces d1) mm =
      getH ((List.range d1.hedges.length).foldl faceStep d1) mm := by
    intro mm
    rw [getH, getH, hhedges]
  have hflen : (create_faces d1).faces.length =
      ((List.range d1.hedges.length).foldl faceStep d1).faces.length := by
    rw [create_faces_eq]
    simp
  have hgetF : ∀ t, t < ((List.range d1.hedges.length).foldl faceStep d1).faces.length →
      getF (create_faces d1) t =
        getF ((List.range d1.hedges.length).foldl faceStep d1) t := by
    intro t ht
    have htm : t < (((List.range d1.hedges.length).foldl faceStep d1).faces.map
        fun f => if area ((List.range d1.hedges.length).foldl faceStep d1) f < 0
          then { f with external := true } else f).length := by
      simpa using ht
    rw [getF, create_faces_eq]
    rw [show ({ (List.range d1.hedges.length).foldl faceStep d1 with
        faces := ((List.range d1.hedges.length).foldl faceStep d1).faces.map
          fun f => if area ((List.range d1.hedges.length).foldl faceStep d1) f < 0
            then { f with external := true } else f } : Dcel).faces =
      ((List.range d1.hedges.length).foldl faceStep d1).faces.map
        (fun f => if area ((List.range d1.hedges.length).foldl faceStep d1) f < 0
          then { f with external := true } else f) from rfl]
    rw [getD_eq_getElem_of_lt _ _ _ htm, List.getElem_map]
    rw [if_neg (not_lt.mpr (area_nonneg _ _))]
    rw [getF, getD_eq_getElem_of_lt _ _ _ ht]
  refine ⟨?_, ?_, ?_, ?_, ?_⟩
  · rw [hhedges]
    exact i1
  · intro mm
    rw [stepN, hgetH mm]
    exact i2 mm
  · intro t ht
    rw [hflen] at ht
    obtain ⟨w, hwN, hgf, hiff⟩ := i3 t ht
    refine ⟨w, hwN, (hgetF t ht).trans hgf, ?_⟩
    intro mm
    rw [hgetH mm]
    exact hiff mm
  · intro mm
    rw [hgetH mm, hflen]
    exact i4 mm
  · intro q hq
    rw [hgetH q]
    exact i5 q hq

/-! ### C5: face extraction terminates and partitions the half-edges -/

set_option maxHeartbeats 1000000 in
/-- C5: for every input on which `build_dcel` runs the linking phase (i.e.
every successful build), the `nexthedge` map of the result is a permutation
of the half-edge arena, walking it from any half-edge returns to the start
in finitely many (at most `|hedges|`) steps, the boundary walk of every
face visits pairwise distinct half-edges, every half-edge lies on the
boundary walk of exactly one face, and every half-edge on a face's walk has
that face recorded as its owner. -/
theorem C5_face_extraction (vs : List (ℚ × ℚ)) (es : List (ℤ × ℤ)) (d : Dcel)
    (hb : build_dcel emptyDcel vs es = .ok d) :
    ValidNext d ∧
    (∀ m, m < d.hedges.length →
      ∃ c, 0 < c ∧ c ≤ d.hedges.length ∧ iterNext d c m = some m) ∧
    (∀ fi, fi < d.faces.length → (faceEdges d (getF d fi)).Nodup) ∧
    (∀ m, m < d.hedges.length →
      ∃! fi, fi < d.faces.length ∧ m ∈ faceEdges d (getF d fi)) ∧
    (∀ fi, fi < d.faces.length → ∀ m, m ∈ faceEdges d (getF d fi) →
      (getH d m).face = some fi) := by
  obtain ⟨da, ha, rfl⟩ := build_ok_inv emptyDcel vs es d hb
  obtain ⟨a1, a2, a3, a4, a5, a6, a7, a8⟩ := addPhase_empty_spec vs es da ha
  obtain ⟨lgeq, lc, ldone, luntouched⟩ := linkAll_spec da a5
  have htwin1 : TwinOK (linkAll da) := by
    intro m hm
    have hmda : m < da.hedges.length := by rw [← lgeq.2.1]; exact hm
    obtain ⟨m', hm', hne, h1, h2⟩ := a6 m hmda
    refine ⟨m', by rw [lgeq.2.1]; exact hm', hne, ?_, ?_⟩
    · rw [(lgeq.2.2.2.2 m).2.2.1, h1]
    · rw [(lgeq.2.2.2.2 m').2.2.1, h2]
  have hlinked1 : ∀ vi, vi < (linkAll da).vertices.length →
      LinkedAt (linkAll da) (getV (linkAll da) vi).hedgelist := by
    intro vi hvi
    have hvida : vi < da.vertices.length := by rw [← lgeq.1]; exact hvi
    exact (ldone vi hvida).2
  have hv1 : ValidNext (linkAll da) := validNext_of (linkAll da) lc htwin1 hlinked1
  have hf0 : (linkAll da).faces = [] := by rw [lgeq.2.2.1, a7]
  have hface0 : ∀ mm, (getH (linkAll da) mm).face = none := by
    intro mm
    rw [(lgeq.2.2.2.2 mm).2.2.2, a8 mm]
  obtain ⟨f1, f2, f3, f4, f5⟩ := create_faces_full (linkAll da) hv1 hf0 hface0
  have hvF : ValidNext (create_faces (linkAll da)) := by
    constructor
    · intro m hm
      rw [f1] at hm
      obtain ⟨m', hm', hs⟩ := hv1.1 m hm
      exact ⟨m', by rw [f1]; exact hm', by rw [f2 m]; exact hs⟩
    · intro m1 m2 hm1 hm2 heq
      rw [f1] at hm1 hm2
      rw [f2 m1, f2 m2] at heq
      exact hv1.2 m1 m2 hm1 hm2 heq
  choose w hw1 hw2 hw3 using f3
  have hchar : ∀ fi (hfi : fi < (create_faces (linkAll da)).faces.length),
      (faceEdges (create_faces (linkAll da))
        (getF (create_faces (linkAll da)) fi)).Nodup ∧
      (∀ m, m ∈ faceEdges (create_faces (linkAll da))
          (getF (create_faces (linkAll da)) fi)
        ↔ Reach (linkAll da) (w fi hfi) m) := by
    intro fi hfi
    have hwN : w fi hfi < (create_faces (linkAll da)).hedges.length := by
      rw [f1]
      exact hw1 fi hfi
    obtain ⟨c, hc0, hcN, hcret, hcmin⟩ :=
      exists_min_period (create_faces (linkAll da)) hvF (w fi hfi) hwN
    have hwalk := walkEdges_cycle (create_faces (linkAll da)) hvF (w fi hfi) hwN c hc0
      hcret hcmin (create_faces (linkAll da)).hedges.length 0 hc0 (by omega)
    simp only [Nat.sub_zero, Nat.zero_add, iterNext_zero, Option.getD_some] at hwalk
    have hfe : faceEdges (create_faces (linkAll da))
        (getF (create_faces (linkAll da)) fi) =
        walkEdges (create_faces (linkAll da)) (w fi hfi)
          (create_faces (linkAll da)).hedges.length (w fi hfi) := by
      rw [hw2 fi hfi]
      rfl
    constructor
    · rw [hfe, hwalk]
      apply List.Nodup.map_on ?_ (List.nodup_range c)
      intro k1 hk1 k2 hk2 hval
      rw [List.mem_range] at hk1 hk2
      by_contra hne
      exact cycle_val_ne (create_faces (linkAll da)) hvF (w fi hfi) hwN c hcmin
        k1 k2 hk1 hk2 hne hval
    · intro m
      rw [hfe, hwalk,
        cycle_mem_iff (create_faces (linkAll da)) hvF (w fi hfi) hwN c m,
        ← reach_iff_lt_period (create_faces (linkAll da)) (w fi hfi) c hc0 hcret m]
      exact reach_congr _ _ f2 _ m
  refine ⟨hvF, ?_, ?_, ?_, ?_⟩
  · intro m hm
    exact iterNext_return (create_faces (linkAll da)) hvF m hm
  · intro fi hfi
    exact (hchar fi hfi).1
  · intro m hm
    have hmN1 : m < (linkAll da).hedges.length := by rw [← f1]; exact hm
    have hfm := f5 m hmN1
    rcases f4 m with hnone | ⟨t, ht, hsome⟩
    · exact absurd hnone hfm
    · refine ⟨t, ⟨⟨ht, ?_⟩, ?_⟩⟩
      · rw [(hchar t ht).2 m]
        exact ((hw3 t ht) m).mp hsome
      · rintro t' ⟨ht', hmem'⟩
        have hr' : Reach (linkAll da) (w t' ht') m := ((hchar t' ht').2 m).mp hmem'
        have hsome' : (getH (create_faces (linkAll da)) m).face = some t' :=
          ((hw3 t' ht') m).mpr hr'
        rw [hsome] at hsome'
        exact (Option.some.inj hsome').symm
  · intro fi hfi m hmem
    have hr : Reach (linkAll da) (w fi hfi) m := ((hchar fi hfi).2 m).mp hmem
    exact ((hw3 fi hfi) m).mpr hr

/-- Witness for C5 at the concrete one-edge build. -/
theorem C5_witness :
    ValidNext oneEdgeDcel ∧
    (∀ m, m < oneEdgeDcel.hedges.length →
      ∃ c, 0 < c ∧ c ≤ oneEdgeDcel.hedges.length ∧ iterNext oneEdgeDcel c m = some m) ∧
    (∀ fi, fi < oneEdgeDcel.faces.length →
      (faceEdges oneEdgeDcel (getF oneEdgeDcel fi)).Nodup) ∧
    (∀ m, m < oneEdgeDcel.hedges.length →
      ∃! fi, fi < oneEdgeDcel.faces.length ∧
        m ∈ faceEdges oneEdgeDcel (getF oneEdgeDcel fi)) ∧
    (∀ fi, fi < oneEdgeDcel.faces.length → ∀ m,
      m ∈ faceEdges oneEdgeDcel (getF oneEdgeDcel fi) →
      (getH oneEdgeDcel m).face = some fi) :=
  C5_face_extraction oneEdgeVs oneEdgeEs oneEdgeDcel build_oneEdge

end Pydcel
